import Mathlib

/-!
Shallow embedding of `src/strokes/selection_comp.rs` of the rnote repository:
the selection and spatial-transform subsystem of a vector-drawing canvas.

Real-number coordinates (`f64` in the source) are modelled as rationals `ℚ`,
so that the affine arithmetic of the transforms is exact and decidable.
Association lists model the slotmap-backed component tables (`SlotMap` /
`SecondaryMap` keyed by `StrokeKey`): iteration order is the list order, and
lookups are by key.
-/

namespace Rnote

/-- An axis-aligned bounding box, as `p2d::bounding_volume::AABB`:
`mins` and `maxs` corner points, stored componentwise. -/
structure AABB where
  minsX : ℚ
  minsY : ℚ
  maxsX : ℚ
  maxsY : ℚ
deriving DecidableEq, Repr

namespace AABB

/-- `p2d`'s `AABB::contains`: `self.mins <= other.mins && other.maxs <= self.maxs`
componentwise (inclusive). -/
def contains (a b : AABB) : Bool :=
  a.minsX ≤ b.minsX && a.minsY ≤ b.minsY && b.maxsX ≤ a.maxsX && b.maxsY ≤ a.maxsY

/-- `p2d`'s `AABB::intersects`: the boxes overlap (inclusive on boundaries). -/
def intersects (a b : AABB) : Bool :=
  a.minsX ≤ b.maxsX && a.maxsX ≥ b.minsX && a.minsY ≤ b.maxsY && a.maxsY ≥ b.minsY

/-- `p2d`'s `BoundingVolume::merged`: componentwise min of mins, max of maxs. -/
def merged (a b : AABB) : AABB :=
  ⟨min a.minsX b.minsX, min a.minsY b.minsY, max a.maxsX b.maxsX, max a.maxsY b.maxsY⟩

/-- `geometry::aabb_translate`: shift both corners by the offset. -/
def translate (a : AABB) (ox oy : ℚ) : AABB :=
  ⟨a.minsX + ox, a.minsY + oy, a.maxsX + ox, a.maxsY + oy⟩

/-- `AABB::extents`, x component: `maxs - mins`. -/
def extentsX (a : AABB) : ℚ := a.maxsX - a.minsX

/-- `AABB::extents`, y component: `maxs - mins`. -/
def extentsY (a : AABB) : ℚ := a.maxsY - a.minsY

end AABB

/-- The stroke variants of `StrokeStyle` (tagged union in
`strokes/strokestyle.rs`).  Each variant carries its `bounds`; the freehand
variants (`MarkerStroke`, `BrushStroke`) additionally carry a `hitbox`, a
sequence of sub-AABBs approximating the ink path. -/
inductive StrokeStyle where
  | markerStroke (bounds : AABB) (hitbox : List AABB)
  | brushStroke (bounds : AABB) (hitbox : List AABB)
  | shapeStroke (bounds : AABB)
  | vectorImage (bounds : AABB)
  | bitmapImage (bounds : AABB)
deriving DecidableEq, Repr

namespace StrokeStyle

/-- `StrokeBehaviour::bounds()`. -/
def bounds : StrokeStyle → AABB
  | markerStroke b _ => b
  | brushStroke b _ => b
  | shapeStroke b => b
  | vectorImage b => b
  | bitmapImage b => b

/-- Modelled from the spec: the stroke capability contract's
`translate(offset)` (implemented in `strokes/strokestyle.rs`, outside src/)
shifts the stroke's geometry — its bounds and, for freehand variants, every
hitbox sub-region — by the given 2D vector. -/
def translate : StrokeStyle → ℚ → ℚ → StrokeStyle
  | markerStroke b hb, ox, oy => markerStroke (b.translate ox oy) (hb.map (·.translate ox oy))
  | brushStroke b hb, ox, oy => brushStroke (b.translate ox oy) (hb.map (·.translate ox oy))
  | shapeStroke b, ox, oy => shapeStroke (b.translate ox oy)
  | vectorImage b, ox, oy => vectorImage (b.translate ox oy)
  | bitmapImage b, ox, oy => bitmapImage (b.translate ox oy)

/-- Modelled from the spec: the stroke capability contract's
`resize(new_bounds)` (implemented in `strokes/strokestyle.rs`, outside src/)
rescales the stroke so its bounds become `new_bounds`. -/
def resize : StrokeStyle → AABB → StrokeStyle
  | markerStroke _ hb, nb => markerStroke nb hb
  | brushStroke _ hb, nb => brushStroke nb hb
  | shapeStroke _, nb => shapeStroke nb
  | vectorImage _, nb => vectorImage nb
  | bitmapImage _, nb => bitmapImage nb

end StrokeStyle

/-- `SelectionComponent { selected: bool }`. -/
structure SelectionComponent where
  selected : Bool
deriving DecidableEq, Repr

/-- `SelectionComponent::SELECTION_DUPLICATION_OFFSET_X`. -/
def SELECTION_DUPLICATION_OFFSET_X : ℚ := 20

/-- `SelectionComponent::SELECTION_DUPLICATION_OFFSET_Y`. -/
def SELECTION_DUPLICATION_OFFSET_Y : ℚ := 20

/-- `ChronoComponent { t }`: the per-stroke stamp of the global chrono counter. -/
structure ChronoComponent where
  t : Nat
deriving DecidableEq, Repr

/-- The cached render image; the selection engine only touches its bounds. -/
structure Image where
  bounds : AABB
deriving DecidableEq, Repr

/-- Modelled from the spec: `render::image_to_texturenode(image, zoom)` (outside
src/) turns the cached image and the zoom into a display-ready node; the node is
modelled as the pair that determines it. -/
structure RenderNode where
  imageBounds : AABB
  zoom : ℚ
deriving DecidableEq, Repr

/-- Modelled from the spec: `render::image_to_texturenode`. -/
def image_to_texturenode (image : Image) (zoom : ℚ) : RenderNode :=
  ⟨image.bounds, zoom⟩

/-- `RenderComponent`: cached image, display node, regenerate flag, visible flag. -/
structure RenderComponent where
  image : Image
  rendernode : RenderNode
  regenerate_flag : Bool
  render : Bool
deriving DecidableEq, Repr

/-- `TrashComponent { trashed: bool }`. -/
structure TrashComponent where
  trashed : Bool
deriving DecidableEq, Repr

/-- The selector collaborator (`pens/selector.rs`): exposes the active
drag-selection rectangle, or none. -/
structure Selector where
  bounds : Option AABB
deriving DecidableEq, Repr

/-- A component table: an association list from `StrokeKey` (modelled as `Nat`)
to the component.  Models the slotmap-backed maps of `StrokesState`. -/
abbrev Table (α : Type) : Type := List (Nat × α)

namespace Table

/-- Key lookup (`SecondaryMap::get`). -/
def get (l : Table α) (k : Nat) : Option α :=
  (List.find? (fun p => p.1 == k) l).map (·.2)

/-- Overwrite the value at a key, leaving other entries unchanged
(`SecondaryMap::get_mut` followed by a field write). -/
def set (l : Table α) (k : Nat) (v : α) : Table α :=
  List.map (fun p => if p.1 == k then (p.1, v) else p) l

/-- The keys column of the table. -/
def keys (l : Table α) : List Nat :=
  List.map (·.1) l

end Table

/-- The `StrokesState` aggregate (fields from `strokes/mod.rs`): the stroke
arena, the per-aspect component tables, the shared chrono counter, the derived
selection bounds, and the zoom.  `next_key` models the arena's fresh-key
assignment. -/
structure StrokesState where
  strokes : Table StrokeStyle
  selection_components : Table SelectionComponent
  chrono_components : Table ChronoComponent
  render_components : Table RenderComponent
  trash_components : Table TrashComponent
  chrono_counter : Nat
  selection_bounds : Option AABB
  zoom : ℚ
  next_key : Nat
deriving DecidableEq, Repr

namespace StrokesState

/-- `can_select`: true iff a selection component exists for the key. -/
def can_select (s : StrokesState) (key : Nat) : Bool :=
  (s.selection_components.get key).isSome

/-- `selected`: the current flag, or none (logged, non-fatal) if the key has no
selection component. -/
def selected (s : StrokesState) (key : Nat) : Option Bool :=
  (s.selection_components.get key).map (·.selected)

/-- `keys_selection`: all keys whose selection component is `selected = true`. -/
def keys_selection (s : StrokesState) : List Nat :=
  s.selection_components.filterMap
    (fun p => if p.2.selected then some p.1 else none)

/-- `selection_len`: count of the selected keys. -/
def selection_len (s : StrokesState) : Nat :=
  s.keys_selection.length

/-- The bounds of the strokes at the given keys, in key order, skipping keys
absent from the arena. -/
def bounds_list (s : StrokesState) (keys : List Nat) : List AABB :=
  keys.filterMap (fun key => (s.strokes.get key).map StrokeStyle.bounds)

end StrokesState

/-- Fold a list of AABBs into their union, or none when the list is empty. -/
def merge_fold : List AABB → Option AABB
  | [] => none
  | b :: bs => some (bs.foldl AABB.merged b)

namespace StrokesState

/-- Modelled from the spec: `gen_bounds` (defined in `strokes/mod.rs`, outside
src/) returns the union (merge) of the bounds of the strokes at the given keys,
or none when there are none. -/
def gen_bounds (s : StrokesState) (keys : List Nat) : Option AABB :=
  merge_fold (s.bounds_list keys)

/-- `update_selection_bounds`: `selection_bounds = gen_bounds(keys_selection)`. -/
def update_selection_bounds (s : StrokesState) : StrokesState :=
  { s with selection_bounds := s.gen_bounds s.keys_selection }

/-- The chrono stamping step used on selection transitions:
`if let Some(chrono_comp) = chrono_components.get_mut(key) {
  chrono_counter += 1; chrono_comp.t = chrono_counter }`. -/
def stamp_chrono (s : StrokesState) (key : Nat) : StrokesState :=
  match s.chrono_components.get key with
  | some _ =>
      { s with
        chrono_counter := s.chrono_counter + 1,
        chrono_components := s.chrono_components.set key ⟨s.chrono_counter + 1⟩ }
  | none => s

/-- `set_selected(key, selected)`: sets the flag, stamps the chrono component
when the new value is `true`, and recomputes the selection bounds; a no-op
(with a logged warning) when the key has no selection component. -/
def set_selected (s : StrokesState) (key : Nat) (sel : Bool) : StrokesState :=
  match s.selection_components.get key with
  | some _ =>
      let s1 := { s with selection_components := s.selection_components.set key ⟨sel⟩ }
      let s2 := if sel then s1.stamp_chrono key else s1
      s2.update_selection_bounds
  | none => s

/-- One iteration of the `deselect_all_strokes` scan: clear the flag at `key`,
then stamp its chrono component. -/
def deselect_step (s : StrokesState) (key : Nat) : StrokesState :=
  let s1 := { s with selection_components := s.selection_components.set key ⟨false⟩ }
  s1.stamp_chrono key

/-- `deselect_all_strokes()`: clears every selection flag, stamping each
stroke's chrono component in scan order, then sets `selection_bounds` to none. -/
def deselect_all_strokes (s : StrokesState) : StrokesState :=
  let s1 := (s.selection_components.keys).foldl deselect_step s
  { s1 with selection_bounds := none }

/-- Modelled from the spec: `insert_stroke` (defined in `strokes/mod.rs`,
outside src/) inserts the stroke into the arena under a fresh key and creates
the per-stroke component entries alongside it with their default values;
returns the new key. -/
def insert_stroke (s : StrokesState) (stroke : StrokeStyle) : StrokesState × Nat :=
  let k := s.next_key
  ({ s with
      strokes := s.strokes ++ [(k, stroke)],
      selection_components := s.selection_components ++ [(k, ⟨false⟩)],
      chrono_components := s.chrono_components ++ [(k, ⟨0⟩)],
      render_components := s.render_components ++
        [(k, ⟨⟨stroke.bounds⟩, ⟨stroke.bounds, s.zoom⟩, true, true⟩)],
      trash_components := s.trash_components ++ [(k, ⟨false⟩)],
      next_key := k + 1 }, k)

/-- One step of the re-rasterization request: set the regenerate flag of the
render component at `key`. -/
def regenerate_step (s : StrokesState) (key : Nat) : StrokesState :=
  match s.render_components.get key with
  | some rc => { s with render_components :=
      s.render_components.set key { rc with regenerate_flag := true } }
  | none => s

/-- Modelled from the spec: `regenerate_rendering_for_selection_threaded`
(outside src/) requests re-rasterization of the selected strokes by setting
their render components' regenerate flag. -/
def regenerate_rendering_for_selection_threaded (s : StrokesState) : StrokesState :=
  s.keys_selection.foldl regenerate_step s

/-- The per-key render refresh after a group translate: shift the cached image
bounds by the offset and rebuild the display node. -/
def translate_render_step (ox oy : ℚ) (s : StrokesState) (key : Nat) : StrokesState :=
  match s.render_components.get key with
  | some rc =>
      let newImage : Image := ⟨rc.image.bounds.translate ox oy⟩
      let newRc : RenderComponent :=
        { rc with
          image := newImage,
          rendernode := image_to_texturenode newImage s.zoom }
      { s with render_components := s.render_components.set key newRc }
  | none => s

/-- `translate_selection(offset)`: translate every selected stroke, then
refresh each translated stroke's cached render image bounds and display node,
then shift `selection_bounds` by the offset when it is present. -/
def translate_selection (s : StrokesState) (ox oy : ℚ) : StrokesState :=
  let translated := s.strokes.filterMap
    (fun p => if (s.selected p.1).getD false then some p.1 else none)
  let newStrokes := s.strokes.map (fun p =>
    if (s.selected p.1).getD false then (p.1, p.2.translate ox oy) else p)
  let s1 := { s with strokes := newStrokes }
  let s2 := translated.foldl (translate_render_step ox oy) s1
  { s2 with selection_bounds := s2.selection_bounds.map (·.translate ox oy) }

/-- One step of the duplication scan: clone the stroke at `key` into a fresh
arena entry, select the clone, and offset the clone by the duplication
constant. -/
def duplicate_step (ox oy : ℚ) (s : StrokesState) (key : Nat) : StrokesState :=
  match s.strokes.get key with
  | some stroke =>
      let (s1, new_key) := s.insert_stroke stroke
      let s2 := s1.set_selected new_key true
      let newStrokes := s2.strokes.map (fun p =>
        if p.1 == new_key then (p.1, p.2.translate ox oy) else p)
      { s2 with strokes := newStrokes }
  | none => s

/-- `duplicate_selection()`: snapshot the selected keys, deselect everything,
clone each snapshotted stroke into a fresh arena entry, select the clone and
offset it by the duplication constant, then translate the whole new selection
by the same offset again and recompute the bounds. -/
def duplicate_selection (s : StrokesState) : StrokesState :=
  let ox := SELECTION_DUPLICATION_OFFSET_X
  let oy := SELECTION_DUPLICATION_OFFSET_Y
  let sel := s.keys_selection
  let s1 := s.deselect_all_strokes
  let s2 := sel.foldl (duplicate_step ox oy) s1
  let s3 := s2.translate_selection ox oy
  s3.update_selection_bounds

/-- The per-stroke verdict of the selector hit test, reading the branch
structure of `update_selection_for_selector`: full containment selects every
variant; for the freehand variants an intersecting selector selects only when
it contains every hitbox sub-region. -/
def hit_verdict (selector_bounds : AABB) : StrokeStyle → Bool
  | .markerStroke b hb =>
      if selector_bounds.contains b then true
      else if selector_bounds.intersects b then hb.all (selector_bounds.contains ·)
      else false
  | .brushStroke b hb =>
      if selector_bounds.contains b then true
      else if selector_bounds.intersects b then hb.all (selector_bounds.contains ·)
      else false
  | .shapeStroke b => selector_bounds.contains b
  | .vectorImage b => selector_bounds.contains b
  | .bitmapImage b => selector_bounds.contains b

/-- Whether the hit-test branch taken stamps the chrono component: the freehand
variants stamp only on the intersection/hitbox path (not on full containment),
the other variants stamp on containment. -/
def hit_stamps (selector_bounds : AABB) : StrokeStyle → Bool
  | .markerStroke b hb =>
      !selector_bounds.contains b && selector_bounds.intersects b
        && hb.all (selector_bounds.contains ·)
  | .brushStroke b hb =>
      !selector_bounds.contains b && selector_bounds.intersects b
        && hb.all (selector_bounds.contains ·)
  | .shapeStroke b => selector_bounds.contains b
  | .vectorImage b => selector_bounds.contains b
  | .bitmapImage b => selector_bounds.contains b

/-- The skip test at the head of the `update_selection_for_selector` scan:
a stroke is skipped when both its render and trash components exist and it is
non-renderable or trashed. -/
def stroke_hidden (s : StrokesState) (key : Nat) : Bool :=
  match s.render_components.get key, s.trash_components.get key with
  | some rc, some tc => !rc.render || tc.trashed
  | _, _ => false

/-- The viewport skip test: a stroke is skipped when a viewport is supplied and
its bounds do not intersect it. -/
def outside_viewport (viewport : Option AABB) (stroke : StrokeStyle) : Bool :=
  match viewport with
  | some vp => !vp.intersects stroke.bounds
  | none => false

/-- One iteration of the `update_selection_for_selector` scan over the arena:
skip hidden and out-of-viewport strokes; otherwise, when a selection component
exists, default it to not selected, apply the hit-test verdict, and stamp the
chrono component on the stamping branches. -/
def selector_step (selector_bounds : AABB) (viewport : Option AABB)
    (s : StrokesState) (key : Nat) (stroke : StrokeStyle) : StrokesState :=
  if s.stroke_hidden key then s
  else if outside_viewport viewport stroke then s
  else
    match s.selection_components.get key with
    | none => s
    | some _ =>
        let s1 := { s with selection_components :=
          s.selection_components.set key ⟨hit_verdict selector_bounds stroke⟩ }
        if hit_stamps selector_bounds stroke then s1.stamp_chrono key else s1

/-- `update_selection_for_selector(selector, viewport) -> bool`: returns the
new state together with the returned flag.  When the selector has no bounds it
returns false at once; otherwise it scans the arena, and when the selected
count changed it recomputes the selection bounds, requests re-rasterization of
the selection, and returns true. -/
def update_selection_for_selector (s : StrokesState) (selector : Selector)
    (viewport : Option AABB) : StrokesState × Bool :=
  match selector.bounds with
  | none => (s, false)
  | some selector_bounds =>
      let selection_len_prev := s.selection_len
      let s1 := s.strokes.foldl
        (fun st p => selector_step selector_bounds viewport st p.1 p.2) s
      if s1.selection_len ≠ selection_len_prev then
        let s2 := s1.update_selection_bounds
        let s3 := s2.regenerate_rendering_for_selection_threaded
        (s3, true)
      else
        (s1, false)

/-- `calc_new_stroke_bounds` inside `resize_selection`: the affine map sending
the old group bounds to the new bounds, applied to one stroke's bounds. -/
def calc_new_stroke_bounds (stroke : StrokeStyle)
    (selection_bounds new_bounds : AABB) : AABB :=
  let offsetX := new_bounds.minsX - selection_bounds.minsX
  let offsetY := new_bounds.minsY - selection_bounds.minsY
  let scaleX := new_bounds.extentsX / selection_bounds.extentsX
  let scaleY := new_bounds.extentsY / selection_bounds.extentsY
  ⟨(stroke.bounds.minsX - selection_bounds.minsX) * scaleX
      + selection_bounds.minsX + offsetX,
   (stroke.bounds.minsY - selection_bounds.minsY) * scaleY
      + selection_bounds.minsY + offsetY,
   (stroke.bounds.minsX - selection_bounds.minsX) * scaleX
      + selection_bounds.minsX + offsetX + stroke.bounds.extentsX * scaleX,
   (stroke.bounds.minsY - selection_bounds.minsY) * scaleY
      + selection_bounds.minsY + offsetY + stroke.bounds.extentsY * scaleY⟩

/-- The per-stroke render refresh after a group resize: install the stroke's
new bounds into the cached image, rebuild the display node, and set the
regenerate flag. -/
def resize_render_step (s : StrokesState) (q : Nat × AABB) : StrokesState :=
  match s.render_components.get q.1 with
  | some rc =>
      let newRc : RenderComponent :=
        { rc with
          image := ⟨q.2⟩,
          rendernode := image_to_texturenode ⟨q.2⟩ s.zoom,
          regenerate_flag := true }
      { s with render_components := s.render_components.set q.1 newRc }
  | none => s

/-- `resize_selection(new_bounds)`: when selection bounds exist, resize every
selected stroke by the group affine map, refresh its cached render image
bounds, display node and regenerate flag, and set `selection_bounds` to the
new bounds; a no-op when no selection bounds exist. -/
def resize_selection (s : StrokesState) (new_bounds : AABB) : StrokesState :=
  match s.selection_bounds with
  | none => s
  | some selection_bounds =>
      let resized := s.strokes.filterMap
        (fun p => if (s.selected p.1).getD false then
            some (p.1, calc_new_stroke_bounds p.2 selection_bounds new_bounds)
          else none)
      let newStrokes := s.strokes.map (fun p =>
        if (s.selected p.1).getD false then
          (p.1, p.2.resize (calc_new_stroke_bounds p.2 selection_bounds new_bounds))
        else p)
      let s1 := { s with strokes := newStrokes }
      let s2 := resized.foldl resize_render_step s1
      { s2 with selection_bounds := some new_bounds }

end StrokesState

/-- Modelled from the spec: one stroke's vector markup element block, recording
the stroke serialized and the origin shift applied to its coordinates
(`gen_svg_data` lives in `strokes/strokestyle.rs`, outside src/). -/
structure SvgElem where
  stroke : StrokeStyle
  offsetX : ℚ
  offsetY : ℚ
deriving DecidableEq, Repr

/-- Modelled from the spec: `StrokeBehaviour::gen_svg_data(offset)` serializes
one stroke's markup with the given coordinate shift; failures are possible and
are skipped by the caller. -/
def gen_svg_data (stroke : StrokeStyle) (ox oy : ℚ) : Except Unit SvgElem :=
  Except.ok ⟨stroke, ox, oy⟩

/-- Modelled from the spec: `compose::wrap_svg` (outside src/) wraps the
concatenated element blocks in a document envelope carrying the bounds and
viewbox. -/
structure SvgDoc where
  data : List SvgElem
  bounds : Option AABB
  viewbox : Option AABB
  xml_header : Bool
  preserve_aspectratio : Bool
deriving DecidableEq, Repr

/-- Modelled from the spec: `compose::wrap_svg`. -/
def wrap_svg (data : List SvgElem) (bounds viewbox : Option AABB)
    (xml_header preserve_aspectratio : Bool) : SvgDoc :=
  ⟨data, bounds, viewbox, xml_header, preserve_aspectratio⟩

namespace StrokesState

/-- `gen_svg_selection()`: when selection bounds exist, serialize every
selected stroke shifted so the selection bounds become the origin (skipping
per-stroke failures), wrap in an envelope sized to the selection's extent, and
return it; returns none when no selection bounds exist. -/
def gen_svg_selection (s : StrokesState) : Except Unit (Option SvgDoc) :=
  match s.selection_bounds with
  | some selection_bounds =>
      let data := (s.keys_selection.filterMap (fun key => s.strokes.get key)).filterMap
        (fun stroke =>
          (gen_svg_data stroke (-selection_bounds.minsX) (-selection_bounds.minsY)).toOption)
      let wrapper_bounds : AABB :=
        ⟨0, 0, selection_bounds.maxsX - selection_bounds.minsX,
          selection_bounds.maxsY - selection_bounds.minsY⟩
      Except.ok (some (wrap_svg data (some wrapper_bounds) (some wrapper_bounds) true false))
  | none => Except.ok none

end StrokesState

/-- The file-sink collaborator (`gio::File`, modelled from the spec's file sink
contract): which of the open, write and close steps would fail. -/
structure GioFile where
  open_fails : Bool
  write_fails : Bool
  close_fails : Bool
deriving DecidableEq, Repr

/-- The file operations `export_selection_as_svg` can perform. -/
inductive FileOp where
  | openOp
  | writeOp
  | closeOp
deriving DecidableEq, Repr

namespace StrokesState

/-- `export_selection_as_svg(file)`: when markup was generated, open the file,
write the markup and close the stream, propagating the first failure; succeeds
without touching the file when there is nothing to export.  Returns the result
together with the trace of file operations attempted. -/
def export_selection_as_svg (s : StrokesState) (file : GioFile) :
    Except Unit Unit × List FileOp :=
  match s.gen_svg_selection with
  | Except.error e => (Except.error e, [])
  | Except.ok none => (Except.ok (), [])
  | Except.ok (some _) =>
      if file.open_fails then (Except.error (), [FileOp.openOp])
      else if file.write_fails then (Except.error (), [FileOp.openOp, FileOp.writeOp])
      else if file.close_fails then
        (Except.error (), [FileOp.openOp, FileOp.writeOp, FileOp.closeOp])
      else (Except.ok (), [FileOp.openOp, FileOp.writeOp, FileOp.closeOp])

end StrokesState

/-- The optional hitbox of a stroke: the freehand variants carry one, the
shape and image variants do not. -/
def StrokeStyle.hitbox : StrokeStyle → Option (List AABB)
  | .markerStroke _ hb => some hb
  | .brushStroke _ hb => some hb
  | .shapeStroke _ => none
  | .vectorImage _ => none
  | .bitmapImage _ => none

/-- The central derived invariant of the spec: `selection_bounds` equals the
union of the bounds of all currently selected strokes, or none if that set is
empty. -/
abbrev SelBoundsInv (s : StrokesState) : Prop :=
  s.selection_bounds = s.gen_bounds s.keys_selection

/-- Structural well-formedness of the slotmap-backed state: each table has
distinct keys and every existing key is below the next fresh key. -/
abbrev StateWF (s : StrokesState) : Prop :=
  s.strokes.keys.Nodup ∧ s.selection_components.keys.Nodup ∧
  s.chrono_components.keys.Nodup ∧ s.render_components.keys.Nodup ∧
  s.trash_components.keys.Nodup ∧
  (∀ k ∈ s.strokes.keys, k < s.next_key) ∧
  (∀ k ∈ s.selection_components.keys, k < s.next_key) ∧
  (∀ k ∈ s.chrono_components.keys, k < s.next_key) ∧
  (∀ k ∈ s.render_components.keys, k < s.next_key) ∧
  (∀ k ∈ s.trash_components.keys, k < s.next_key)

section TableLemmas

variable {α : Type}

theorem Table.get_nil (k : Nat) : Table.get ([] : Table α) k = none := rfl

theorem Table.get_cons (p : Nat × α) (l : Table α) (k : Nat) :
    Table.get (p :: l) k = if p.1 = k then some p.2 else Table.get l k := by
  by_cases h : p.1 = k <;> simp [Table.get, List.find?_cons, h]

theorem Table.get_set (l : Table α) (k : Nat) (v : α) (q : Nat) :
    Table.get (l.set k v) q =
      if q = k then (Table.get l q).map (fun _ => v) else Table.get l q := by
  induction l with
  | nil => by_cases h : q = k <;> simp [Table.set, Table.get_nil, h]
  | cons p l ih =>
      have hset : Table.set (p :: l) k v
          = (if p.1 == k then (p.1, v) else p) :: Table.set l k v := rfl
      rw [hset]
      by_cases hpk : p.1 = k
      · rw [if_pos (by simp [hpk])]
        rw [Table.get_cons, Table.get_cons]
        by_cases hpq : p.1 = q
        · have hqk : q = k := hpq ▸ hpk
          simp [hpq, hqk]
        · rw [if_neg hpq, if_neg hpq, ih]
      · rw [if_neg (by simp [hpk])]
        rw [Table.get_cons, Table.get_cons]
        by_cases hpq : p.1 = q
        · have hqk : ¬ q = k := fun h => hpk (hpq.trans h)
          simp [hpq, hqk]
        · rw [if_neg hpq, if_neg hpq, ih]

theorem Table.get_set_ne (l : Table α) (k : Nat) (v : α) (q : Nat) (h : q ≠ k) :
    Table.get (l.set k v) q = Table.get l q := by
  simp [Table.get_set, h]

theorem Table.get_set_self (l : Table α) (k : Nat) (v : α) :
    Table.get (l.set k v) k = (Table.get l k).map (fun _ => v) := by
  simp [Table.get_set]

theorem Table.keys_set (l : Table α) (k : Nat) (v : α) :
    Table.keys (l.set k v) = Table.keys l := by
  induction l with
  | nil => rfl
  | cons p l ih =>
      have hset : Table.set (p :: l) k v
          = (if p.1 == k then (p.1, v) else p) :: Table.set l k v := rfl
      rw [hset]
      by_cases hpk : p.1 = k <;> simp [hpk, Table.keys] at ih ⊢ <;> exact ih

theorem Table.isSome_get_iff_mem_keys (l : Table α) (k : Nat) :
    (Table.get l k).isSome ↔ k ∈ Table.keys l := by
  induction l with
  | nil => simp [Table.get_nil, Table.keys]
  | cons p l ih =>
      rw [Table.get_cons]
      by_cases hpk : p.1 = k
      · simp [hpk, Table.keys]
      · simp only [hpk, if_false, Table.keys, List.map_cons, List.mem_cons]
        rw [show Table.keys l = List.map (·.1) l from rfl] at ih
        rw [ih]
        constructor
        · exact fun h => Or.inr h
        · rintro (h | h)
          · exact absurd h.symm hpk
          · exact h

theorem Table.get_eq_none_of_not_mem_keys (l : Table α) (k : Nat)
    (h : k ∉ Table.keys l) : Table.get l k = none := by
  rcases ho : Table.get l k with _ | v
  · rfl
  · exact absurd ((Table.isSome_get_iff_mem_keys l k).mp (by simp [ho])) h

theorem Table.get_append (l₁ l₂ : Table α) (k : Nat) :
    Table.get (l₁ ++ l₂) k = (Table.get l₁ k).or (Table.get l₂ k) := by
  induction l₁ with
  | nil => simp [Table.get_nil]
  | cons p l ih =>
      rw [List.cons_append, Table.get_cons, Table.get_cons]
      by_cases hpk : p.1 = k
      · simp [hpk]
      · simp [hpk, ih]

theorem Table.get_map_ite (l : Table α) (c : Nat → Bool) (h : α → α) (k : Nat) :
    Table.get (l.map (fun p => if c p.1 then (p.1, h p.2) else p)) k
      = (Table.get l k).map (fun v => if c k then h v else v) := by
  induction l with
  | nil => simp [Table.get_nil]
  | cons p l ih =>
      rw [List.map_cons]
      rcases hc : c p.1 with _ | _
      · rw [if_neg (by simp [hc])]
        rw [Table.get_cons, Table.get_cons]
        by_cases hpk : p.1 = k
        · subst hpk; simp [hc]
        · simp [hpk, ih]
      · rw [if_pos (by simp [hc])]
        rw [Table.get_cons, Table.get_cons]
        by_cases hpk : p.1 = k
        · subst hpk; simp [hc]
        · simp [hpk, ih]

theorem Table.keys_map_ite (l : Table α) (c : Nat → Bool) (h : α → α) :
    Table.keys (l.map (fun p => if c p.1 then (p.1, h p.2) else p)) = Table.keys l := by
  induction l with
  | nil => rfl
  | cons p l ih =>
      rw [List.map_cons]
      rcases hc : c p.1 with _ | _
      · rw [if_neg (by simp [hc])]
        simp [Table.keys] at ih ⊢; exact ih
      · rw [if_pos (by simp [hc])]
        simp [Table.keys] at ih ⊢; exact ih

end TableLemmas

section AABBLemmas

theorem AABB.translate_translate (a : AABB) (ox oy ox' oy' : ℚ) :
    (a.translate ox oy).translate ox' oy' = a.translate (ox + ox') (oy + oy') := by
  simp [AABB.translate]; ring_nf; exact ⟨trivial, trivial, trivial, trivial⟩

theorem AABB.translate_zero (a : AABB) : a.translate 0 0 = a := by
  simp [AABB.translate]

theorem AABB.translate_neg_cancel (a : AABB) (ox oy : ℚ) :
    (a.translate ox oy).translate (-ox) (-oy) = a := by
  rw [AABB.translate_translate]
  simp [AABB.translate]

theorem AABB.merged_translate (a b : AABB) (ox oy : ℚ) :
    (a.merged b).translate ox oy = (a.translate ox oy).merged (b.translate ox oy) := by
  simp only [AABB.merged, AABB.translate]
  refine AABB.mk.injEq .. |>.mpr ?_
  refine ⟨?_, ?_, ?_, ?_⟩ <;> rcases le_total a.minsX b.minsX <;>
    rcases le_total a.minsY b.minsY <;> rcases le_total a.maxsX b.maxsX <;>
    rcases le_total a.maxsY b.maxsY <;>
    simp_all [min_def, max_def]

end AABBLemmas

section StrokeLemmas

theorem StrokeStyle.bounds_translate (st : StrokeStyle) (ox oy : ℚ) :
    (st.translate ox oy).bounds = st.bounds.translate ox oy := by
  cases st <;> rfl

theorem StrokeStyle.bounds_resize (st : StrokeStyle) (nb : AABB) :
    (st.resize nb).bounds = nb := by
  cases st <;> rfl

theorem StrokeStyle.translate_then_neg (st : StrokeStyle) (ox oy : ℚ) :
    (st.translate ox oy).translate (-ox) (-oy) = st := by
  cases st <;>
    simp [StrokeStyle.translate, AABB.translate_neg_cancel, List.map_map,
      Function.comp_def]

end StrokeLemmas

section StateBasicLemmas

variable (s : StrokesState)

theorem StrokesState.update_selection_bounds_spec :
    SelBoundsInv s.update_selection_bounds := rfl

theorem StrokesState.update_selection_bounds_selection_components :
    s.update_selection_bounds.selection_components = s.selection_components := rfl

theorem StrokesState.update_selection_bounds_strokes :
    s.update_selection_bounds.strokes = s.strokes := rfl

theorem StrokesState.update_selection_bounds_chrono_counter :
    s.update_selection_bounds.chrono_counter = s.chrono_counter := rfl

theorem StrokesState.update_selection_bounds_chrono_components :
    s.update_selection_bounds.chrono_components = s.chrono_components := rfl

theorem StrokesState.stamp_chrono_strokes (k : Nat) :
    (s.stamp_chrono k).strokes = s.strokes := by
  rcases h : s.chrono_components.get k with _ | c <;> simp [StrokesState.stamp_chrono, h]

theorem StrokesState.stamp_chrono_selection_components (k : Nat) :
    (s.stamp_chrono k).selection_components = s.selection_components := by
  rcases h : s.chrono_components.get k with _ | c <;> simp [StrokesState.stamp_chrono, h]

theorem StrokesState.stamp_chrono_render_components (k : Nat) :
    (s.stamp_chrono k).render_components = s.render_components := by
  rcases h : s.chrono_components.get k with _ | c <;> simp [StrokesState.stamp_chrono, h]

theorem StrokesState.stamp_chrono_trash_components (k : Nat) :
    (s.stamp_chrono k).trash_components = s.trash_components := by
  rcases h : s.chrono_components.get k with _ | c <;> simp [StrokesState.stamp_chrono, h]

theorem StrokesState.stamp_chrono_selection_bounds (k : Nat) :
    (s.stamp_chrono k).selection_bounds = s.selection_bounds := by
  rcases h : s.chrono_components.get k with _ | c <;> simp [StrokesState.stamp_chrono, h]

theorem StrokesState.stamp_chrono_next_key (k : Nat) :
    (s.stamp_chrono k).next_key = s.next_key := by
  rcases h : s.chrono_components.get k with _ | c <;> simp [StrokesState.stamp_chrono, h]

theorem StrokesState.stamp_chrono_zoom (k : Nat) :
    (s.stamp_chrono k).zoom = s.zoom := by
  rcases h : s.chrono_components.get k with _ | c <;> simp [StrokesState.stamp_chrono, h]

theorem StrokesState.stamp_chrono_chrono_keys (k : Nat) :
    (s.stamp_chrono k).chrono_components.keys = s.chrono_components.keys := by
  rcases h : s.chrono_components.get k with _ | c <;>
    simp [StrokesState.stamp_chrono, h, Table.keys_set]

theorem StrokesState.stamp_chrono_counter_eq (k : Nat) :
    (s.stamp_chrono k).chrono_counter
      = s.chrono_counter + (if (s.chrono_components.get k).isSome then 1 else 0) := by
  rcases h : s.chrono_components.get k with _ | c <;> simp [StrokesState.stamp_chrono, h]

theorem StrokesState.stamp_chrono_counter_le (k : Nat) :
    s.chrono_counter ≤ (s.stamp_chrono k).chrono_counter := by
  rw [StrokesState.stamp_chrono_counter_eq]
  exact Nat.le_add_right _ _

theorem StrokesState.stamp_chrono_get_ne (k q : Nat) (h : q ≠ k) :
    (s.stamp_chrono k).chrono_components.get q = s.chrono_components.get q := by
  rcases hc : s.chrono_components.get k with _ | c <;>
    simp [StrokesState.stamp_chrono, hc, Table.get_set_ne _ _ _ _ h]

theorem StrokesState.stamp_chrono_get_some (k : Nat) (c : ChronoComponent)
    (h : s.chrono_components.get k = some c) :
    (s.stamp_chrono k).chrono_counter = s.chrono_counter + 1 ∧
    (s.stamp_chrono k).chrono_components.get k = some ⟨s.chrono_counter + 1⟩ := by
  refine ⟨by simp [StrokesState.stamp_chrono, h], ?_⟩
  simp [StrokesState.stamp_chrono, h, Table.get_set_self]

theorem StrokesState.stamp_chrono_get_none (k : Nat)
    (h : s.chrono_components.get k = none) :
    s.stamp_chrono k = s := by
  simp [StrokesState.stamp_chrono, h]

theorem StrokesState.mem_keys_selection_of_selected (k : Nat)
    (h : s.selected k = some true) : k ∈ s.keys_selection := by
  rcases hf : List.find? (fun p => p.1 == k) s.selection_components with _ | p
  · simp [StrokesState.selected, Table.get, hf] at h
  · have hp2 : p.2.selected = true := by
      simp [StrokesState.selected, Table.get, hf] at h
      exact h
    have hp1 : p.1 = k := by
      have := List.find?_some hf
      simpa using this
    have hpmem : p ∈ s.selection_components := List.mem_of_find?_eq_some hf
    have : p.1 ∈ s.keys_selection := by
      unfold StrokesState.keys_selection
      exact List.mem_filterMap.mpr ⟨p, hpmem, by simp [hp2]⟩
    rwa [hp1] at this

theorem Table.get_of_mem_nodup {α : Type} (l : Table α) (p : Nat × α)
    (hnd : (Table.keys l).Nodup) (hpmem : p ∈ l) :
    Table.get l p.1 = some p.2 := by
  induction l with
  | nil => exact absurd hpmem (List.not_mem_nil p)
  | cons q l ih =>
      rcases List.mem_cons.mp hpmem with hq | hl
      · subst hq
        simp [Table.get_cons]
      · have hk : Table.keys (q :: l) = q.1 :: Table.keys l := rfl
        rw [hk, List.nodup_cons] at hnd
        have hq1 : q.1 ≠ p.1 := by
          intro hq1
          have hmem : p.1 ∈ Table.keys l := List.mem_map_of_mem (·.1) hl
          exact hnd.1 (hq1 ▸ hmem)
        rw [Table.get_cons, if_neg hq1]
        exact ih hnd.2 hl

theorem StrokesState.selected_of_mem_keys_selection (k : Nat)
    (hnd : s.selection_components.keys.Nodup)
    (h : k ∈ s.keys_selection) : s.selected k = some true := by
  unfold StrokesState.keys_selection at h
  rcases List.mem_filterMap.mp h with ⟨p, hpmem, hpk⟩
  have hp2 : p.2.selected = true := by
    by_cases hsel : p.2.selected <;> simp [hsel] at hpk ⊢
  have hp1 : p.1 = k := by
    by_cases hsel : p.2.selected <;> simp [hsel] at hpk
    exact hpk
  have hget := Table.get_of_mem_nodup s.selection_components p hnd hpmem
  rw [hp1] at hget
  simp [StrokesState.selected, hget, hp2]

end StateBasicLemmas

section FrameLemmas

/-- Any fold whose step only rewrites the render component table leaves every
other field of the state unchanged. -/
theorem foldl_render_only {β : Type} (step : StrokesState → β → StrokesState)
    (hstep : ∀ st b, ∃ rcs, step st b = { st with render_components := rcs })
    (l : List β) (st : StrokesState) :
    ∃ rcs, l.foldl step st = { st with render_components := rcs } := by
  induction l generalizing st with
  | nil => exact ⟨st.render_components, rfl⟩
  | cons b l ih =>
      rcases hstep st b with ⟨rcs1, h1⟩
      rcases ih (step st b) with ⟨rcs2, h2⟩
      refine ⟨rcs2, ?_⟩
      rw [List.foldl_cons, h2, h1]

/-- Any fold whose step only rewrites the selection table, the chrono table
and the chrono counter leaves every other field of the state unchanged. -/
theorem foldl_selchrono_only {β : Type} (step : StrokesState → β → StrokesState)
    (hstep : ∀ st b, ∃ sc cc n, step st b =
      { st with selection_components := sc, chrono_components := cc, chrono_counter := n })
    (l : List β) (st : StrokesState) :
    ∃ sc cc n, l.foldl step st =
      { st with selection_components := sc, chrono_components := cc, chrono_counter := n } := by
  induction l generalizing st with
  | nil => exact ⟨st.selection_components, st.chrono_components, st.chrono_counter, rfl⟩
  | cons b l ih =>
      rcases hstep st b with ⟨sc1, cc1, n1, h1⟩
      rcases ih (step st b) with ⟨sc2, cc2, n2, h2⟩
      refine ⟨sc2, cc2, n2, ?_⟩
      rw [List.foldl_cons, h2, h1]

theorem foldl_render_only_strokes {β : Type} (step : StrokesState → β → StrokesState)
    (hstep : ∀ st b, ∃ rcs, step st b = { st with render_components := rcs })
    (l : List β) (st : StrokesState) : (l.foldl step st).strokes = st.strokes := by
  rcases foldl_render_only step hstep l st with ⟨rcs, h⟩; rw [h]

theorem foldl_render_only_selection_components {β : Type}
    (step : StrokesState → β → StrokesState)
    (hstep : ∀ st b, ∃ rcs, step st b = { st with render_components := rcs })
    (l : List β) (st : StrokesState) :
    (l.foldl step st).selection_components = st.selection_components := by
  rcases foldl_render_only step hstep l st with ⟨rcs, h⟩; rw [h]

theorem foldl_render_only_chrono_components {β : Type}
    (step : StrokesState → β → StrokesState)
    (hstep : ∀ st b, ∃ rcs, step st b = { st with render_components := rcs })
    (l : List β) (st : StrokesState) :
    (l.foldl step st).chrono_components = st.chrono_components := by
  rcases foldl_render_only step hstep l st with ⟨rcs, h⟩; rw [h]

theorem foldl_render_only_trash_components {β : Type}
    (step : StrokesState → β → StrokesState)
    (hstep : ∀ st b, ∃ rcs, step st b = { st with render_components := rcs })
    (l : List β) (st : StrokesState) :
    (l.foldl step st).trash_components = st.trash_components := by
  rcases foldl_render_only step hstep l st with ⟨rcs, h⟩; rw [h]

theorem foldl_render_only_chrono_counter {β : Type}
    (step : StrokesState → β → StrokesState)
    (hstep : ∀ st b, ∃ rcs, step st b = { st with render_components := rcs })
    (l : List β) (st : StrokesState) :
    (l.foldl step st).chrono_counter = st.chrono_counter := by
  rcases foldl_render_only step hstep l st with ⟨rcs, h⟩; rw [h]

theorem foldl_render_only_selection_bounds {β : Type}
    (step : StrokesState → β → StrokesState)
    (hstep : ∀ st b, ∃ rcs, step st b = { st with render_components := rcs })
    (l : List β) (st : StrokesState) :
    (l.foldl step st).selection_bounds = st.selection_bounds := by
  rcases foldl_render_only step hstep l st with ⟨rcs, h⟩; rw [h]

theorem foldl_render_only_zoom {β : Type} (step : StrokesState → β → StrokesState)
    (hstep : ∀ st b, ∃ rcs, step st b = { st with render_components := rcs })
    (l : List β) (st : StrokesState) : (l.foldl step st).zoom = st.zoom := by
  rcases foldl_render_only step hstep l st with ⟨rcs, h⟩; rw [h]

theorem foldl_render_only_next_key {β : Type} (step : StrokesState → β → StrokesState)
    (hstep : ∀ st b, ∃ rcs, step st b = { st with render_components := rcs })
    (l : List β) (st : StrokesState) : (l.foldl step st).next_key = st.next_key := by
  rcases foldl_render_only step hstep l st with ⟨rcs, h⟩; rw [h]

theorem foldl_selchrono_only_strokes {β : Type} (step : StrokesState → β → StrokesState)
    (hstep : ∀ st b, ∃ sc cc n, step st b =
      { st with selection_components := sc, chrono_components := cc, chrono_counter := n })
    (l : List β) (st : StrokesState) : (l.foldl step st).strokes = st.strokes := by
  rcases foldl_selchrono_only step hstep l st with ⟨sc, cc, n, h⟩; rw [h]

theorem foldl_selchrono_only_render_components {β : Type}
    (step : StrokesState → β → StrokesState)
    (hstep : ∀ st b, ∃ sc cc n, step st b =
      { st with selection_components := sc, chrono_components := cc, chrono_counter := n })
    (l : List β) (st : StrokesState) :
    (l.foldl step st).render_components = st.render_components := by
  rcases foldl_selchrono_only step hstep l st with ⟨sc, cc, n, h⟩; rw [h]

theorem foldl_selchrono_only_trash_components {β : Type}
    (step : StrokesState → β → StrokesState)
    (hstep : ∀ st b, ∃ sc cc n, step st b =
      { st with selection_components := sc, chrono_components := cc, chrono_counter := n })
    (l : List β) (st : StrokesState) :
    (l.foldl step st).trash_components = st.trash_components := by
  rcases foldl_selchrono_only step hstep l st with ⟨sc, cc, n, h⟩; rw [h]

theorem foldl_selchrono_only_selection_bounds {β : Type}
    (step : StrokesState → β → StrokesState)
    (hstep : ∀ st b, ∃ sc cc n, step st b =
      { st with selection_components := sc, chrono_components := cc, chrono_counter := n })
    (l : List β) (st : StrokesState) :
    (l.foldl step st).selection_bounds = st.selection_bounds := by
  rcases foldl_selchrono_only step hstep l st with ⟨sc, cc, n, h⟩; rw [h]

theorem foldl_selchrono_only_zoom {β : Type} (step : StrokesState → β → StrokesState)
    (hstep : ∀ st b, ∃ sc cc n, step st b =
      { st with selection_components := sc, chrono_components := cc, chrono_counter := n })
    (l : List β) (st : StrokesState) : (l.foldl step st).zoom = st.zoom := by
  rcases foldl_selchrono_only step hstep l st with ⟨sc, cc, n, h⟩; rw [h]

theorem foldl_selchrono_only_next_key {β : Type} (step : StrokesState → β → StrokesState)
    (hstep : ∀ st b, ∃ sc cc n, step st b =
      { st with selection_components := sc, chrono_components := cc, chrono_counter := n })
    (l : List β) (st : StrokesState) : (l.foldl step st).next_key = st.next_key := by
  rcases foldl_selchrono_only step hstep l st with ⟨sc, cc, n, h⟩; rw [h]

theorem StrokesState.stamp_chrono_frame (s : StrokesState) (k : Nat) :
    ∃ cc n, s.stamp_chrono k = { s with chrono_components := cc, chrono_counter := n } := by
  rcases h : s.chrono_components.get k with _ | c
  · exact ⟨s.chrono_components, s.chrono_counter, by simp [StrokesState.stamp_chrono, h]⟩
  · exact ⟨s.chrono_components.set k ⟨s.chrono_counter + 1⟩, s.chrono_counter + 1,
      by simp [StrokesState.stamp_chrono, h]⟩

theorem StrokesState.regenerate_step_frame (s : StrokesState) (k : Nat) :
    ∃ rcs, s.regenerate_step k = { s with render_components := rcs } := by
  rcases h : s.render_components.get k with _ | rc
  · exact ⟨s.render_components, by simp [StrokesState.regenerate_step, h]⟩
  · exact ⟨s.render_components.set k { rc with regenerate_flag := true },
      by simp [StrokesState.regenerate_step, h]⟩

theorem StrokesState.translate_render_step_frame (ox oy : ℚ) (s : StrokesState) (k : Nat) :
    ∃ rcs, StrokesState.translate_render_step ox oy s k = { s with render_components := rcs } := by
  rcases h : s.render_components.get k with _ | rc
  · exact ⟨s.render_components, by simp [StrokesState.translate_render_step, h]⟩
  · exact ⟨s.render_components.set k
        { rc with
          image := ⟨rc.image.bounds.translate ox oy⟩,
          rendernode := image_to_texturenode ⟨rc.image.bounds.translate ox oy⟩ s.zoom },
      by simp [StrokesState.translate_render_step, h]⟩

theorem StrokesState.resize_render_step_frame (s : StrokesState) (q : Nat × AABB) :
    ∃ rcs, s.resize_render_step q = { s with render_components := rcs } := by
  rcases h : s.render_components.get q.1 with _ | rc
  · exact ⟨s.render_components, by simp [StrokesState.resize_render_step, h]⟩
  · exact ⟨s.render_components.set q.1
        { rc with
          image := ⟨q.2⟩,
          rendernode := image_to_texturenode ⟨q.2⟩ s.zoom,
          regenerate_flag := true },
      by simp [StrokesState.resize_render_step, h]⟩

theorem StrokesState.deselect_step_frame (s : StrokesState) (k : Nat) :
    ∃ sc cc n, s.deselect_step k =
      { s with selection_components := sc, chrono_components := cc, chrono_counter := n } := by
  unfold StrokesState.deselect_step
  rcases StrokesState.stamp_chrono_frame
      { s with selection_components := s.selection_components.set k ⟨false⟩ } k with ⟨cc, n, h⟩
  exact ⟨s.selection_components.set k ⟨false⟩, cc, n, h⟩

theorem StrokesState.selector_step_frame (sb : AABB) (vp : Option AABB)
    (s : StrokesState) (k : Nat) (stroke : StrokeStyle) :
    ∃ sc cc n, StrokesState.selector_step sb vp s k stroke =
      { s with selection_components := sc, chrono_components := cc, chrono_counter := n } := by
  unfold StrokesState.selector_step
  by_cases h1 : s.stroke_hidden k = true
  · exact ⟨s.selection_components, s.chrono_components, s.chrono_counter, by simp [h1]⟩
  · by_cases h2 : StrokesState.outside_viewport vp stroke = true
    · exact ⟨s.selection_components, s.chrono_components, s.chrono_counter,
        by simp [h1, h2]⟩
    · rcases h3 : s.selection_components.get k with _ | c
      · exact ⟨s.selection_components, s.chrono_components, s.chrono_counter,
          by simp [h1, h2, h3]⟩
      · by_cases h4 : StrokesState.hit_stamps sb stroke = true
        · rcases StrokesState.stamp_chrono_frame
            { s with selection_components :=
                s.selection_components.set k ⟨StrokesState.hit_verdict sb stroke⟩ } k
            with ⟨cc, n, h⟩
          exact ⟨s.selection_components.set k ⟨StrokesState.hit_verdict sb stroke⟩, cc, n,
            by simp [h1, h2, h3, h4, h]⟩
        · exact ⟨s.selection_components.set k ⟨StrokesState.hit_verdict sb stroke⟩,
            s.chrono_components, s.chrono_counter, by simp [h1, h2, h3, h4]⟩

end FrameLemmas

section Examples

/-- A render component caching the given bounds at zoom 1, visible and with a
clean regenerate flag. -/
def exRender (b : AABB) : RenderComponent := ⟨⟨b⟩, ⟨b, 1⟩, false, true⟩

/-- Two shape strokes; stroke 0 is selected, stroke 1 is not, and the
selection bounds are stroke 0's bounds, so the bounds invariant holds. -/
def exStateA : StrokesState :=
  { strokes := [(0, .shapeStroke ⟨0, 0, 1, 1⟩), (1, .shapeStroke ⟨10, 10, 11, 11⟩)],
    selection_components := [(0, ⟨true⟩), (1, ⟨false⟩)],
    chrono_components := [(0, ⟨1⟩), (1, ⟨0⟩)],
    render_components := [(0, exRender ⟨0, 0, 1, 1⟩), (1, exRender ⟨10, 10, 11, 11⟩)],
    trash_components := [(0, ⟨false⟩), (1, ⟨false⟩)],
    chrono_counter := 1,
    selection_bounds := some ⟨0, 0, 1, 1⟩,
    zoom := 1,
    next_key := 2 }

/-- A selector box that fully contains stroke 1 of `exStateA` and misses
stroke 0 entirely. -/
def exSelectorB : Selector := ⟨some ⟨9, 9, 12, 12⟩⟩

/-- The empty canvas. -/
def exStateEmpty : StrokesState :=
  { strokes := [], selection_components := [], chrono_components := [],
    render_components := [], trash_components := [],
    chrono_counter := 0, selection_bounds := none, zoom := 1, next_key := 0 }

end Examples

section ClaimC10

/-- C10: when nothing is selected (`selection_bounds` is none),
`gen_svg_selection()` returns none without error, and
`export_selection_as_svg(file)` succeeds without performing any file open,
write, or close operation. -/
theorem empty_selection_export (s : StrokesState)
    (h : s.selection_bounds = none) :
    s.gen_svg_selection = Except.ok none ∧
    ∀ f : GioFile, s.export_selection_as_svg f = (Except.ok (), []) := by
  have hg : s.gen_svg_selection = Except.ok none := by
    unfold StrokesState.gen_svg_selection
    rw [h]
  refine ⟨hg, fun f => ?_⟩
  unfold StrokesState.export_selection_as_svg
  rw [hg]

theorem empty_selection_export_witness :
    exStateEmpty.gen_svg_selection = Except.ok none ∧
    exStateEmpty.export_selection_as_svg ⟨false, false, false⟩ = (Except.ok (), []) := by
  have h := empty_selection_export exStateEmpty rfl
  exact ⟨h.1, h.2 ⟨false, false, false⟩⟩

end ClaimC10

section ClaimC5

theorem StrokesState.resize_selection_strokes (s : StrokesState) (N B : AABB)
    (hB : s.selection_bounds = some B) :
    (s.resize_selection N).strokes = s.strokes.map (fun p =>
      if (s.selected p.1).getD false then
        (p.1, p.2.resize (StrokesState.calc_new_stroke_bounds p.2 B N))
      else p) := by
  unfold StrokesState.resize_selection
  rw [hB]
  dsimp only
  rw [foldl_render_only_strokes _ StrokesState.resize_render_step_frame]

theorem StrokesState.resize_selection_selection_components (s : StrokesState)
    (N B : AABB) (hB : s.selection_bounds = some B) :
    (s.resize_selection N).selection_components = s.selection_components := by
  unfold StrokesState.resize_selection
  rw [hB]
  dsimp only
  rw [foldl_render_only_selection_components _ StrokesState.resize_render_step_frame]

theorem StrokesState.resize_selection_bounds_some (s : StrokesState) (N B : AABB)
    (hB : s.selection_bounds = some B) :
    (s.resize_selection N).selection_bounds = some N := by
  unfold StrokesState.resize_selection
  rw [hB]

/-- C5: with selection bounds `B` present, `resize_selection(N)` gives every
selected stroke new bounds with mins `B.min + (stroke.min − B.min) * scale +
(N.min − B.min)` and extent `old extent * scale` per axis, where
`scale = N.extent / B.extent`; afterwards `selection_bounds` is exactly `N`;
with no selection bounds the call changes nothing. -/
theorem resize_selection_law (s : StrokesState) (N B : AABB)
    (hB : s.selection_bounds = some B)
    (k : Nat) (stroke : StrokeStyle)
    (hk : s.strokes.get k = some stroke)
    (hsel : s.selected k = some true) :
    (∃ stroke2, (s.resize_selection N).strokes.get k = some stroke2 ∧
      stroke2.bounds.minsX
        = B.minsX + (stroke.bounds.minsX - B.minsX) * (N.extentsX / B.extentsX)
            + (N.minsX - B.minsX) ∧
      stroke2.bounds.minsY
        = B.minsY + (stroke.bounds.minsY - B.minsY) * (N.extentsY / B.extentsY)
            + (N.minsY - B.minsY) ∧
      stroke2.bounds.extentsX = stroke.bounds.extentsX * (N.extentsX / B.extentsX) ∧
      stroke2.bounds.extentsY = stroke.bounds.extentsY * (N.extentsY / B.extentsY)) ∧
    (s.resize_selection N).selection_bounds = some N ∧
    (∀ t : StrokesState, t.selection_bounds = none → t.resize_selection N = t) := by
  refine ⟨⟨stroke.resize (StrokesState.calc_new_stroke_bounds stroke B N), ?_, ?_, ?_, ?_, ?_⟩,
    ?_, ?_⟩
  · rw [s.resize_selection_strokes N B hB]
    rw [Table.get_map_ite s.strokes (fun n => (s.selected n).getD false)
        (fun v => v.resize (StrokesState.calc_new_stroke_bounds v B N)) k]
    rw [hk]
    simp [hsel]
  · rw [StrokeStyle.bounds_resize]
    unfold StrokesState.calc_new_stroke_bounds
    dsimp only
    ring
  · rw [StrokeStyle.bounds_resize]
    unfold StrokesState.calc_new_stroke_bounds
    dsimp only
    ring
  · rw [StrokeStyle.bounds_resize]
    unfold StrokesState.calc_new_stroke_bounds AABB.extentsX
    dsimp only
    ring
  · rw [StrokeStyle.bounds_resize]
    unfold StrokesState.calc_new_stroke_bounds AABB.extentsY
    dsimp only
    ring
  · exact s.resize_selection_bounds_some N B hB
  · intro t ht
    unfold StrokesState.resize_selection
    rw [ht]

theorem resize_selection_law_witness :
    (exStateA.resize_selection ⟨2, 2, 6, 4⟩).selection_bounds = some ⟨2, 2, 6, 4⟩ ∧
    exStateEmpty.resize_selection ⟨2, 2, 6, 4⟩ = exStateEmpty := by
  have h := resize_selection_law exStateA ⟨2, 2, 6, 4⟩ ⟨0, 0, 1, 1⟩ (by decide) 0
    (.shapeStroke ⟨0, 0, 1, 1⟩) (by decide) (by decide)
  exact ⟨h.2.1, h.2.2 exStateEmpty (by decide)⟩

end ClaimC5

section ChronoFoldLemmas

theorem Table.isSome_get_congr {α β : Type} (l : Table α) (l2 : Table β) (q : Nat)
    (h : Table.keys l = Table.keys l2) :
    (Table.get l q).isSome = (Table.get l2 q).isSome := by
  by_cases hq : q ∈ Table.keys l
  · have h1 := (Table.isSome_get_iff_mem_keys l q).mpr hq
    have h2 := (Table.isSome_get_iff_mem_keys l2 q).mpr (h ▸ hq)
    rw [h1, h2]
  · have h1 : ¬ (Table.get l q).isSome := fun hs =>
      hq ((Table.isSome_get_iff_mem_keys l q).mp hs)
    have h2 : ¬ (Table.get l2 q).isSome := fun hs =>
      hq (h ▸ (Table.isSome_get_iff_mem_keys l2 q).mp hs)
    simp only [Bool.not_eq_true] at h1 h2
    rw [h1, h2]

/-- Counter monotonicity through any fold of counter-monotone steps. -/
theorem counter_mono_fold {β : Type} (step : StrokesState → β → StrokesState)
    (hmono : ∀ st b, st.chrono_counter ≤ (step st b).chrono_counter) :
    ∀ (l : List β) (st : StrokesState),
      st.chrono_counter ≤ (l.foldl step st).chrono_counter := by
  intro l
  induction l with
  | nil => exact fun st => Nat.le_refl _
  | cons b l ih => exact fun st => Nat.le_trans (hmono st b) (ih (step st b))

/-- Through any fold whose steps either leave a chrono entry alone or stamp it
with the freshly incremented counter, an entry stamped above `lo` stays
stamped above `lo` and below the final counter. -/
theorem chrono_range_fold {β : Type} (step : StrokesState → β → StrokesState)
    (hgood : ∀ st b, st.chrono_counter ≤ (step st b).chrono_counter ∧
      ∀ k, (step st b).chrono_components.get k = st.chrono_components.get k ∨
        ((step st b).chrono_components.get k = some ⟨(step st b).chrono_counter⟩ ∧
          (step st b).chrono_counter = st.chrono_counter + 1)) :
    ∀ (l : List β) (st : StrokesState) (k : Nat) (lo : Nat) (c : ChronoComponent),
      st.chrono_components.get k = some c → lo < c.t → c.t ≤ st.chrono_counter →
      ∃ c2, (l.foldl step st).chrono_components.get k = some c2 ∧ lo < c2.t ∧
        c2.t ≤ (l.foldl step st).chrono_counter := by
  intro l
  induction l with
  | nil => exact fun st k lo c hc hlo hhi => ⟨c, hc, hlo, hhi⟩
  | cons b l ih =>
      intro st k lo c hc hlo hhi
      rcases (hgood st b).2 k with hsame | ⟨hstamp, hcnt⟩
      · exact ih (step st b) k lo c (hsame.trans hc) hlo
          (Nat.le_trans hhi (hgood st b).1)
      · refine ih (step st b) k lo ⟨(step st b).chrono_counter⟩ hstamp ?_ (Nat.le_refl _)
        have hle : lo ≤ st.chrono_counter := Nat.le_trans (Nat.le_of_lt hlo) hhi
        show lo < (step st b).chrono_counter
        omega

theorem StrokesState.deselect_step_selection_components (st : StrokesState) (k : Nat) :
    (st.deselect_step k).selection_components
      = st.selection_components.set k ⟨false⟩ := by
  unfold StrokesState.deselect_step
  rw [StrokesState.stamp_chrono_selection_components]

theorem StrokesState.deselect_step_chrono_keys (st : StrokesState) (k : Nat) :
    (st.deselect_step k).chrono_components.keys = st.chrono_components.keys := by
  unfold StrokesState.deselect_step
  rw [StrokesState.stamp_chrono_chrono_keys]

theorem StrokesState.deselect_step_counter_eq (st : StrokesState) (k : Nat) :
    (st.deselect_step k).chrono_counter
      = st.chrono_counter + (if (st.chrono_components.get k).isSome then 1 else 0) := by
  unfold StrokesState.deselect_step
  rw [StrokesState.stamp_chrono_counter_eq]

theorem StrokesState.deselect_step_good (st : StrokesState) (k : Nat) :
    st.chrono_counter ≤ (st.deselect_step k).chrono_counter ∧
    ∀ q, (st.deselect_step k).chrono_components.get q = st.chrono_components.get q ∨
      ((st.deselect_step k).chrono_components.get q
          = some ⟨(st.deselect_step k).chrono_counter⟩ ∧
        (st.deselect_step k).chrono_counter = st.chrono_counter + 1) := by
  constructor
  · rw [StrokesState.deselect_step_counter_eq]
    exact Nat.le_add_right _ _
  · intro q
    have hds : st.deselect_step k = StrokesState.stamp_chrono
        { st with selection_components := st.selection_components.set k ⟨false⟩ } k := rfl
    by_cases hqk : q = k
    · subst hqk
      rcases hc : st.chrono_components.get q with _ | c
      · left
        rw [hds, StrokesState.stamp_chrono_get_none
          { st with selection_components := st.selection_components.set q ⟨false⟩ } q hc]
        exact hc
      · right
        have hsome := StrokesState.stamp_chrono_get_some
          { st with selection_components := st.selection_components.set q ⟨false⟩ } q c hc
        rw [hds]
        exact ⟨by rw [hsome.2, hsome.1], hsome.1⟩
    · left
      rw [hds]
      exact StrokesState.stamp_chrono_get_ne _ _ _ hqk

theorem StrokesState.deselect_fold_chrono_keys (ks : List Nat) :
    ∀ st : StrokesState, (ks.foldl StrokesState.deselect_step st).chrono_components.keys
      = st.chrono_components.keys := by
  induction ks with
  | nil => exact fun st => rfl
  | cons k ks ih =>
      intro st
      rw [List.foldl_cons, ih, StrokesState.deselect_step_chrono_keys]

theorem StrokesState.deselect_fold_counter (ks : List Nat) :
    ∀ st : StrokesState, (ks.foldl StrokesState.deselect_step st).chrono_counter
      = st.chrono_counter
        + ks.countP (fun k => (st.chrono_components.get k).isSome) := by
  induction ks with
  | nil => intro st; simp
  | cons k ks ih =>
      intro st
      rw [List.foldl_cons, ih (st.deselect_step k)]
      have hcong : ks.countP
            (fun q => ((st.deselect_step k).chrono_components.get q).isSome)
          = ks.countP (fun q => (st.chrono_components.get q).isSome) := by
        refine List.countP_congr (fun q _ => ?_)
        rw [Table.isSome_get_congr _ _ q (StrokesState.deselect_step_chrono_keys st k)]
      rw [hcong, StrokesState.deselect_step_counter_eq, List.countP_cons]
      by_cases hi : (st.chrono_components.get k).isSome
      · simp [hi]
        omega
      · simp [hi]

theorem StrokesState.deselect_fold_all_false (ks : List Nat) :
    ∀ st : StrokesState,
      (∀ p ∈ st.selection_components, p.1 ∈ ks ∨ p.2.selected = false) →
      ∀ p ∈ (ks.foldl StrokesState.deselect_step st).selection_components,
        p.2.selected = false := by
  induction ks with
  | nil =>
      intro st h p hp
      rcases h p hp with hfalse | hfalse
      · exact absurd hfalse (List.not_mem_nil p.1)
      · exact hfalse
  | cons k ks ih =>
      intro st h p hp
      rw [List.foldl_cons] at hp
      refine ih (st.deselect_step k) ?_ p hp
      intro q hq
      rw [StrokesState.deselect_step_selection_components] at hq
      rcases List.mem_map.mp hq with ⟨r, hr, hrq⟩
      by_cases hrk : r.1 = k
      · have : q = (r.1, (⟨false⟩ : SelectionComponent)) := by
          rw [← hrq]; simp [hrk]
        right
        rw [this]
      · have hqr : q = r := by rw [← hrq]; simp [hrk]
        rcases h r hr with hmem | hfalse
        · rcases List.mem_cons.mp hmem with h1 | h2
          · exact absurd h1 hrk
          · exact Or.inl (by rw [hqr]; exact h2)
        · exact Or.inr (by rw [hqr]; exact hfalse)

theorem StrokesState.deselect_fold_stamped (ks : List Nat) :
    ∀ (st : StrokesState) (k : Nat) (c : ChronoComponent),
      k ∈ ks → st.chrono_components.get k = some c →
      ∃ c2, (ks.foldl StrokesState.deselect_step st).chrono_components.get k = some c2 ∧
        st.chrono_counter < c2.t ∧
        c2.t ≤ (ks.foldl StrokesState.deselect_step st).chrono_counter := by
  induction ks with
  | nil => intro st k c hk; exact absurd hk (List.not_mem_nil k)
  | cons q ks ih =>
      intro st k c hk hc
      rw [List.foldl_cons]
      by_cases hqk : k = q
      · subst hqk
        have hds : st.deselect_step k = StrokesState.stamp_chrono
            { st with selection_components := st.selection_components.set k ⟨false⟩ } k := rfl
        have hstamp := StrokesState.stamp_chrono_get_some
          { st with selection_components := st.selection_components.set k ⟨false⟩ } k c hc
        have hget : (st.deselect_step k).chrono_components.get k
            = some ⟨st.chrono_counter + 1⟩ := by
          rw [hds, hstamp.2]
        have hcnt : (st.deselect_step k).chrono_counter = st.chrono_counter + 1 := by
          rw [hds, hstamp.1]
        refine chrono_range_fold StrokesState.deselect_step
          (fun st2 b => StrokesState.deselect_step_good st2 b) ks
          (st.deselect_step k) k st.chrono_counter ⟨st.chrono_counter + 1⟩ hget
          (Nat.lt_succ_self _) (by rw [hcnt])
      · rcases List.mem_cons.mp hk with h1 | h2
        · exact absurd h1 hqk
        · have hds : st.deselect_step q = StrokesState.stamp_chrono
              { st with selection_components := st.selection_components.set q ⟨false⟩ } q := rfl
          have hpres : (st.deselect_step q).chrono_components.get k
              = st.chrono_components.get k := by
            rw [hds]
            exact StrokesState.stamp_chrono_get_ne _ _ _ hqk
          rcases ih (st.deselect_step q) k c h2 (hpres.trans hc) with ⟨c2, hg, hlt, hle⟩
          refine ⟨c2, hg, ?_, hle⟩
          have : st.chrono_counter ≤ (st.deselect_step q).chrono_counter :=
            (StrokesState.deselect_step_good st q).1
          omega

end ChronoFoldLemmas

section ClaimC6

/-- One unselected stroke that still has selection and chrono components. -/
def exStateUnsel : StrokesState :=
  { strokes := [(0, .shapeStroke ⟨0, 0, 1, 1⟩)],
    selection_components := [(0, ⟨false⟩)],
    chrono_components := [(0, ⟨2⟩)],
    render_components := [(0, exRender ⟨0, 0, 1, 1⟩)],
    trash_components := [(0, ⟨false⟩)],
    chrono_counter := 7, selection_bounds := none, zoom := 1, next_key := 1 }

/-- C6 counterexample: `deselect_all_strokes` advances the chrono counter even
though no stroke was previously selected, contradicting "exactly once per
previously-selected stroke". -/
theorem deselect_all_counterexample :
    exStateUnsel.selection_len = 0 ∧
    exStateUnsel.deselect_all_strokes.chrono_counter
      = exStateUnsel.chrono_counter + 1 := by
  decide

/-- C6 amended: `deselect_all_strokes()` sets every selection flag to false and
sets `selection_bounds` to none unconditionally, but advances the chrono
counter once per stroke that has a selection component together with a chrono
component — regardless of whether it was previously selected — stamping each
such stroke with a fresh counter value. -/
theorem deselect_all_amended (s : StrokesState) :
    s.deselect_all_strokes.chrono_counter
      = s.chrono_counter + s.selection_components.countP
          (fun p => (s.chrono_components.get p.1).isSome) ∧
    (∀ p ∈ s.deselect_all_strokes.selection_components, p.2.selected = false) ∧
    s.deselect_all_strokes.selection_bounds = none ∧
    (∀ k c, k ∈ s.selection_components.keys → s.chrono_components.get k = some c →
      ∃ c2, s.deselect_all_strokes.chrono_components.get k = some c2 ∧
        s.chrono_counter < c2.t ∧ c2.t ≤ s.deselect_all_strokes.chrono_counter) := by
  have hds : s.deselect_all_strokes
      = { (s.selection_components.keys.foldl StrokesState.deselect_step s) with
          selection_bounds := none } := rfl
  refine ⟨?_, ?_, ?_, ?_⟩
  · rw [hds]
    show (s.selection_components.keys.foldl StrokesState.deselect_step s).chrono_counter
      = _
    rw [StrokesState.deselect_fold_counter]
    unfold Table.keys
    rw [List.countP_map]
    rfl
  · intro p hp
    rw [hds] at hp
    refine StrokesState.deselect_fold_all_false s.selection_components.keys s ?_ p hp
    intro q hq
    exact Or.inl (List.mem_map_of_mem (·.1) hq)
  · rw [hds]
  · intro k c hk hc
    rcases StrokesState.deselect_fold_stamped s.selection_components.keys s k c hk hc
      with ⟨c2, hg, hlt, hle⟩
    exact ⟨c2, by rw [hds]; exact hg, hlt, by rw [hds]; exact hle⟩

theorem deselect_all_amended_witness :
    exStateUnsel.deselect_all_strokes.chrono_counter
        = exStateUnsel.chrono_counter + exStateUnsel.selection_components.countP
            (fun p => (exStateUnsel.chrono_components.get p.1).isSome) ∧
    exStateUnsel.deselect_all_strokes.selection_bounds = none ∧
    ∃ c2, exStateUnsel.deselect_all_strokes.chrono_components.get 0 = some c2 ∧
      exStateUnsel.chrono_counter < c2.t ∧
      c2.t ≤ exStateUnsel.deselect_all_strokes.chrono_counter := by
  have h := deselect_all_amended exStateUnsel
  exact ⟨h.1, h.2.2.1, h.2.2.2 0 ⟨2⟩ (by decide) (by decide)⟩

end ClaimC6

section ClaimC7

/-- One stroke that is already selected, with chrono stamp 3 and counter 3. -/
def exStateSel : StrokesState :=
  { strokes := [(0, .shapeStroke ⟨0, 0, 1, 1⟩)],
    selection_components := [(0, ⟨true⟩)],
    chrono_components := [(0, ⟨3⟩)],
    render_components := [(0, exRender ⟨0, 0, 1, 1⟩)],
    trash_components := [(0, ⟨false⟩)],
    chrono_counter := 3, selection_bounds := some ⟨0, 0, 1, 1⟩, zoom := 1, next_key := 1 }

/-- C7 counterexample: `set_selected(0, true)` on an already-selected stroke is
not a transition to selected, yet the chrono counter advances and the stroke is
restamped — contradicting "stamped if and only if the stroke transitions to
selected = true". -/
theorem set_selected_counterexample :
    exStateSel.selected 0 = some true ∧
    (exStateSel.set_selected 0 true).chrono_counter
      = exStateSel.chrono_counter + 1 ∧
    (exStateSel.set_selected 0 true).chrono_components.get 0 = some ⟨4⟩ := by
  decide

/-- C7 amended: `set_selected(key, selected)` with an existing selection
component sets the flag and always recomputes `selection_bounds`; the chrono
counter advances and the stroke is stamped exactly when the requested value is
`true` and a chrono component exists — regardless of whether this is a
transition.  Without a selection component the whole state is unchanged. -/
theorem StrokesState.with_sel_selection_components (s : StrokesState)
    (t : Table SelectionComponent) :
    ({ s with selection_components := t } : StrokesState).selection_components = t := rfl

theorem StrokesState.with_sel_chrono_components (s : StrokesState)
    (t : Table SelectionComponent) :
    ({ s with selection_components := t } : StrokesState).chrono_components
      = s.chrono_components := rfl

theorem StrokesState.with_sel_chrono_counter (s : StrokesState)
    (t : Table SelectionComponent) :
    ({ s with selection_components := t } : StrokesState).chrono_counter
      = s.chrono_counter := rfl

theorem set_selected_amended (s : StrokesState) (k : Nat) (b : Bool) :
    (s.selection_components.get k = none → s.set_selected k b = s) ∧
    (∀ c0, s.selection_components.get k = some c0 →
      (s.set_selected k b).selected k = some b ∧
      SelBoundsInv (s.set_selected k b) ∧
      (b = false →
        (s.set_selected k b).chrono_counter = s.chrono_counter ∧
        (s.set_selected k b).chrono_components = s.chrono_components) ∧
      (b = true → s.chrono_components.get k = none →
        (s.set_selected k b).chrono_counter = s.chrono_counter ∧
        (s.set_selected k b).chrono_components = s.chrono_components) ∧
      (b = true → ∀ c, s.chrono_components.get k = some c →
        (s.set_selected k b).chrono_counter = s.chrono_counter + 1 ∧
        (s.set_selected k b).chrono_components.get k = some ⟨s.chrono_counter + 1⟩)) := by
  constructor
  · intro h
    unfold StrokesState.set_selected
    rw [h]
  · intro c0 hc0
    have hss : s.set_selected k b
        = (if b then
            StrokesState.stamp_chrono
              { s with selection_components := s.selection_components.set k ⟨b⟩ } k
          else
            { s with selection_components :=
                s.selection_components.set k ⟨b⟩ }).update_selection_bounds := by
      unfold StrokesState.set_selected
      rw [hc0]
    rcases b with _ | _
    · rw [if_neg (by simp)] at hss
      refine ⟨?_, ?_, ?_, ?_, ?_⟩
      · unfold StrokesState.selected
        rw [hss, StrokesState.update_selection_bounds_selection_components,
          StrokesState.with_sel_selection_components, Table.get_set_self, hc0]
        rfl
      · rw [hss]
        exact StrokesState.update_selection_bounds_spec _
      · intro _
        rw [hss]
        exact ⟨rfl, rfl⟩
      · intro hb
        exact absurd hb (by simp)
      · intro hb
        exact absurd hb (by simp)
    · rw [if_pos rfl] at hss
      refine ⟨?_, ?_, ?_, ?_, ?_⟩
      · unfold StrokesState.selected
        rw [hss, StrokesState.update_selection_bounds_selection_components,
          StrokesState.stamp_chrono_selection_components,
          StrokesState.with_sel_selection_components, Table.get_set_self, hc0]
        rfl
      · rw [hss]
        exact StrokesState.update_selection_bounds_spec _
      · intro hb
        exact absurd hb (by simp)
      · intro _ hchrono
        rw [hss]
        have h0 := StrokesState.stamp_chrono_get_none
          { s with selection_components := s.selection_components.set k ⟨true⟩ } k hchrono
        rw [StrokesState.update_selection_bounds_chrono_counter,
          StrokesState.update_selection_bounds_chrono_components, h0]
        exact ⟨rfl, rfl⟩
      · intro _ c hchrono
        rw [hss]
        have hsome := StrokesState.stamp_chrono_get_some
          { s with selection_components := s.selection_components.set k ⟨true⟩ } k c hchrono
        rw [StrokesState.update_selection_bounds_chrono_counter,
          StrokesState.update_selection_bounds_chrono_components]
        exact ⟨hsome.1, hsome.2⟩

theorem set_selected_amended_witness :
    (exStateSel.set_selected 0 true).selected 0 = some true ∧
    SelBoundsInv (exStateSel.set_selected 0 true) ∧
    (exStateSel.set_selected 0 true).chrono_counter = exStateSel.chrono_counter + 1 := by
  have h := (set_selected_amended exStateSel 0 true).2 ⟨true⟩ (by decide)
  exact ⟨h.1, h.2.1, (h.2.2.2.2 rfl ⟨3⟩ (by decide)).1⟩

end ClaimC7

section TranslateLemmas

theorem StrokesState.translate_selection_strokes (s : StrokesState) (ox oy : ℚ) :
    (s.translate_selection ox oy).strokes = s.strokes.map (fun p =>
      if (s.selected p.1).getD false then (p.1, p.2.translate ox oy) else p) := by
  unfold StrokesState.translate_selection
  dsimp only
  rw [foldl_render_only_strokes _ (StrokesState.translate_render_step_frame ox oy)]

theorem StrokesState.translate_selection_selection_components (s : StrokesState)
    (ox oy : ℚ) :
    (s.translate_selection ox oy).selection_components = s.selection_components := by
  unfold StrokesState.translate_selection
  dsimp only
  rw [foldl_render_only_selection_components _
    (StrokesState.translate_render_step_frame ox oy)]

theorem StrokesState.translate_selection_chrono_components (s : StrokesState)
    (ox oy : ℚ) :
    (s.translate_selection ox oy).chrono_components = s.chrono_components := by
  unfold StrokesState.translate_selection
  dsimp only
  rw [foldl_render_only_chrono_components _
    (StrokesState.translate_render_step_frame ox oy)]

theorem StrokesState.translate_selection_chrono_counter (s : StrokesState)
    (ox oy : ℚ) :
    (s.translate_selection ox oy).chrono_counter = s.chrono_counter := by
  unfold StrokesState.translate_selection
  dsimp only
  rw [foldl_render_only_chrono_counter _
    (StrokesState.translate_render_step_frame ox oy)]

theorem StrokesState.translate_selection_bounds (s : StrokesState) (ox oy : ℚ) :
    (s.translate_selection ox oy).selection_bounds
      = s.selection_bounds.map (·.translate ox oy) := by
  unfold StrokesState.translate_selection
  dsimp only
  rw [foldl_render_only_selection_bounds _
    (StrokesState.translate_render_step_frame ox oy)]

theorem StrokesState.translate_selection_selected (s : StrokesState) (ox oy : ℚ)
    (k : Nat) : (s.translate_selection ox oy).selected k = s.selected k := by
  unfold StrokesState.selected
  rw [StrokesState.translate_selection_selection_components]

end TranslateLemmas

section ClaimC9

/-- C9: `translate_selection(v)` followed by `translate_selection(-v)` restores
every stroke (in particular every selected stroke's bounds) and restores
`selection_bounds`; a single `translate_selection(v)` shifts `selection_bounds`
by exactly `v` when present and leaves it none when absent. -/
theorem translate_selection_inverse (s : StrokesState) (ox oy : ℚ)
    (_hne : s.selection_len ≠ 0) :
    ((s.translate_selection ox oy).translate_selection (-ox) (-oy)).strokes
      = s.strokes ∧
    ((s.translate_selection ox oy).translate_selection (-ox) (-oy)).selection_bounds
      = s.selection_bounds ∧
    (s.translate_selection ox oy).selection_bounds
      = s.selection_bounds.map (·.translate ox oy) := by
  refine ⟨?_, ?_, StrokesState.translate_selection_bounds s ox oy⟩
  · rw [StrokesState.translate_selection_strokes,
      StrokesState.translate_selection_strokes, List.map_map]
    have hpt : ∀ p ∈ s.strokes,
        ((fun p => if ((s.translate_selection ox oy).selected p.1).getD false then
            (p.1, p.2.translate (-ox) (-oy)) else p) ∘
          (fun p => if (s.selected p.1).getD false then
            (p.1, p.2.translate ox oy) else p)) p = id p := by
      intro p _
      simp only [Function.comp_apply, id_eq]
      have htr : ∀ q : Nat, ((s.translate_selection ox oy).selected q).getD false
          = (s.selected q).getD false := by
        intro q
        rw [StrokesState.translate_selection_selected]
      rcases hsel : (s.selected p.1).getD false with _ | _
      · simp [hsel, htr]
      · simp [hsel, htr, StrokeStyle.translate_then_neg]
    rw [List.map_congr_left hpt, List.map_id]
  · rw [StrokesState.translate_selection_bounds,
      StrokesState.translate_selection_bounds, Option.map_map]
    have hcomp : ((fun a : AABB => a.translate (-ox) (-oy)) ∘
        (fun a : AABB => a.translate ox oy)) = id := by
      funext a
      simp only [Function.comp_apply, id_eq]
      exact AABB.translate_neg_cancel a ox oy
    rw [hcomp, Option.map_id]
    rfl

theorem translate_selection_inverse_witness :
    ((exStateA.translate_selection 3 4).translate_selection (-3) (-4)).strokes
      = exStateA.strokes ∧
    ((exStateA.translate_selection 3 4).translate_selection (-3) (-4)).selection_bounds
      = exStateA.selection_bounds ∧
    (exStateA.translate_selection 3 4).selection_bounds
      = exStateA.selection_bounds.map (·.translate 3 4) :=
  translate_selection_inverse exStateA 3 4 (by decide)

end ClaimC9

section ClaimC2

/-- C2 counterexample: the selector deselects stroke 0 and selects stroke 1,
so the selected set changes from `[0]` to `[1]`, yet the call returns false
because the selected count is unchanged. -/
theorem selector_return_counterexample :
    (exStateA.update_selection_for_selector exSelectorB none).2 = false ∧
    exStateA.keys_selection = [0] ∧
    (exStateA.update_selection_for_selector exSelectorB none).1.keys_selection = [1] := by
  decide

theorem StrokesState.regenerate_selection_components (s : StrokesState) :
    s.regenerate_rendering_for_selection_threaded.selection_components
      = s.selection_components := by
  unfold StrokesState.regenerate_rendering_for_selection_threaded
  rw [foldl_render_only_selection_components _ StrokesState.regenerate_step_frame]

theorem StrokesState.selection_len_congr (s t : StrokesState)
    (h : s.selection_components = t.selection_components) :
    s.selection_len = t.selection_len := by
  unfold StrokesState.selection_len StrokesState.keys_selection
  rw [h]

/-- C2 amended: `update_selection_for_selector` returns false and changes
nothing when the selector has no bounds; otherwise it returns true if and only
if the *count* of selected keys changed (not the selected set itself — see the
counterexample). -/
theorem selector_return_amended (s : StrokesState) (sel : Selector)
    (vp : Option AABB) :
    (sel.bounds = none → s.update_selection_for_selector sel vp = (s, false)) ∧
    ((s.update_selection_for_selector sel vp).2 = true ↔
      (s.update_selection_for_selector sel vp).1.selection_len ≠ s.selection_len) := by
  rcases hb : sel.bounds with _ | sb
  · have hres : s.update_selection_for_selector sel vp = (s, false) := by
      unfold StrokesState.update_selection_for_selector
      rw [hb]
    refine ⟨fun _ => hres, ?_⟩
    rw [hres]
    simp
  · have himp : some sb = none → s.update_selection_for_selector sel vp = (s, false) := by
      intro h
      cases h
    refine ⟨himp, ?_⟩
    have hres : s.update_selection_for_selector sel vp
        = (if (s.strokes.foldl
              (fun st p => StrokesState.selector_step sb vp st p.1 p.2) s).selection_len
              ≠ s.selection_len then
            (((s.strokes.foldl (fun st p => StrokesState.selector_step sb vp st p.1 p.2)
                s).update_selection_bounds).regenerate_rendering_for_selection_threaded,
              true)
          else
            (s.strokes.foldl (fun st p => StrokesState.selector_step sb vp st p.1 p.2) s,
              false)) := by
      unfold StrokesState.update_selection_for_selector
      rw [hb]
    rw [hres]
    by_cases hlen : (s.strokes.foldl
        (fun st p => StrokesState.selector_step sb vp st p.1 p.2) s).selection_len
        ≠ s.selection_len
    · rw [if_pos hlen]
      have hsame : (((s.strokes.foldl
            (fun st p => StrokesState.selector_step sb vp st p.1 p.2)
            s).update_selection_bounds).regenerate_rendering_for_selection_threaded).selection_len
          = (s.strokes.foldl
            (fun st p => StrokesState.selector_step sb vp st p.1 p.2) s).selection_len := by
        refine StrokesState.selection_len_congr _ _ ?_
        rw [StrokesState.regenerate_selection_components,
          StrokesState.update_selection_bounds_selection_components]
      simpa [hsame] using hlen
    · rw [if_neg hlen]
      simpa using hlen

theorem selector_return_amended_witness :
    exStateA.update_selection_for_selector ⟨none⟩ none = (exStateA, false) ∧
    ((exStateA.update_selection_for_selector exSelectorB none).2 = true ↔
      (exStateA.update_selection_for_selector exSelectorB none).1.selection_len
        ≠ exStateA.selection_len) :=
  ⟨(selector_return_amended exStateA ⟨none⟩ none).1 rfl,
    (selector_return_amended exStateA exSelectorB none).2⟩

end ClaimC2

section SelectorStepLemmas

/-- Whether the scan of `update_selection_for_selector` stamps the chrono
component of this arena entry: the stroke is not hidden, is inside the
viewport, has selection and chrono components, and its hit-test branch is a
stamping branch. -/
def stamp_here (st : StrokesState) (sb : AABB) (vp : Option AABB)
    (p : Nat × StrokeStyle) : Bool :=
  !st.stroke_hidden p.1 && !StrokesState.outside_viewport vp p.2 &&
    (st.selection_components.get p.1).isSome && StrokesState.hit_stamps sb p.2 &&
    (st.chrono_components.get p.1).isSome

/-- The arena scan of `update_selection_for_selector`, folded over a table
prefix. -/
def sel_scan (sb : AABB) (vp : Option AABB) (l : Table StrokeStyle)
    (st : StrokesState) : StrokesState :=
  l.foldl (fun st p => StrokesState.selector_step sb vp st p.1 p.2) st

/-- The state with the selection flag at `k` overwritten. -/
def sel_set (st : StrokesState) (k : Nat) (b : Bool) : StrokesState :=
  { st with selection_components := st.selection_components.set k ⟨b⟩ }

theorem sel_set_selection_components (st : StrokesState) (k : Nat) (b : Bool) :
    (sel_set st k b).selection_components = st.selection_components.set k ⟨b⟩ := rfl

theorem sel_set_chrono_components (st : StrokesState) (k : Nat) (b : Bool) :
    (sel_set st k b).chrono_components = st.chrono_components := rfl

theorem sel_set_chrono_counter (st : StrokesState) (k : Nat) (b : Bool) :
    (sel_set st k b).chrono_counter = st.chrono_counter := rfl

theorem StrokesState.stroke_hidden_congr (s t : StrokesState) (k : Nat)
    (hr : t.render_components = s.render_components)
    (ht : t.trash_components = s.trash_components) :
    t.stroke_hidden k = s.stroke_hidden k := by
  unfold StrokesState.stroke_hidden
  rw [hr, ht]

theorem selector_step_of_hidden (sb : AABB) (vp : Option AABB) (st : StrokesState)
    (k : Nat) (stroke : StrokeStyle) (h : st.stroke_hidden k = true) :
    StrokesState.selector_step sb vp st k stroke = st := by
  unfold StrokesState.selector_step
  rw [if_pos h]

theorem selector_step_of_outside (sb : AABB) (vp : Option AABB) (st : StrokesState)
    (k : Nat) (stroke : StrokeStyle)
    (h : StrokesState.outside_viewport vp stroke = true) :
    StrokesState.selector_step sb vp st k stroke = st := by
  unfold StrokesState.selector_step
  by_cases h1 : st.stroke_hidden k = true
  · rw [if_pos h1]
  · rw [if_neg h1, if_pos h]

theorem selector_step_of_no_selcomp (sb : AABB) (vp : Option AABB)
    (st : StrokesState) (k : Nat) (stroke : StrokeStyle)
    (h : st.selection_components.get k = none) :
    StrokesState.selector_step sb vp st k stroke = st := by
  unfold StrokesState.selector_step
  by_cases h1 : st.stroke_hidden k = true
  · rw [if_pos h1]
  · by_cases h2 : StrokesState.outside_viewport vp stroke = true
    · rw [if_neg h1, if_pos h2]
    · rw [if_neg h1, if_neg h2, h]

theorem selector_step_of_selcomp (sb : AABB) (vp : Option AABB) (st : StrokesState)
    (k : Nat) (stroke : StrokeStyle) (c : SelectionComponent)
    (h1 : st.stroke_hidden k = false)
    (h2 : StrokesState.outside_viewport vp stroke = false)
    (h3 : st.selection_components.get k = some c) :
    StrokesState.selector_step sb vp st k stroke =
      (if StrokesState.hit_stamps sb stroke then
        (sel_set st k (StrokesState.hit_verdict sb stroke)).stamp_chrono k
      else
        sel_set st k (StrokesState.hit_verdict sb stroke)) := by
  unfold StrokesState.selector_step
  rw [if_neg (by simp [h1]), if_neg (by simp [h2]), h3]
  rfl

theorem selector_step_counter (sb : AABB) (vp : Option AABB) (st : StrokesState)
    (k : Nat) (stroke : StrokeStyle) :
    (StrokesState.selector_step sb vp st k stroke).chrono_counter
      = st.chrono_counter + (if stamp_here st sb vp (k, stroke) then 1 else 0) := by
  by_cases h1 : st.stroke_hidden k = true
  · rw [selector_step_of_hidden sb vp st k stroke h1]
    simp [stamp_here, h1]
  · by_cases h2 : StrokesState.outside_viewport vp stroke = true
    · rw [selector_step_of_outside sb vp st k stroke h2]
      simp [stamp_here, h2]
    · rcases h3 : st.selection_components.get k with _ | c
      · rw [selector_step_of_no_selcomp sb vp st k stroke h3]
        simp [stamp_here, h3]
      · rw [selector_step_of_selcomp sb vp st k stroke c
          (by simp at h1; exact h1) (by simp at h2; exact h2) h3]
        by_cases h4 : StrokesState.hit_stamps sb stroke
        · rw [if_pos h4, StrokesState.stamp_chrono_counter_eq,
            sel_set_chrono_components, sel_set_chrono_counter]
          simp [stamp_here, h1, h2, h3, h4]
        · rw [if_neg h4, sel_set_chrono_counter]
          simp [stamp_here, h4]

theorem selector_step_good (sb : AABB) (vp : Option AABB) (st : StrokesState)
    (p : Nat × StrokeStyle) :
    st.chrono_counter
        ≤ (StrokesState.selector_step sb vp st p.1 p.2).chrono_counter ∧
    ∀ q, (StrokesState.selector_step sb vp st p.1 p.2).chrono_components.get q
        = st.chrono_components.get q ∨
      ((StrokesState.selector_step sb vp st p.1 p.2).chrono_components.get q
          = some ⟨(StrokesState.selector_step sb vp st p.1 p.2).chrono_counter⟩ ∧
        (StrokesState.selector_step sb vp st p.1 p.2).chrono_counter
          = st.chrono_counter + 1) := by
  constructor
  · rw [selector_step_counter]
    exact Nat.le_add_right _ _
  · intro q
    by_cases h1 : st.stroke_hidden p.1 = true
    · rw [selector_step_of_hidden sb vp st p.1 p.2 h1]
      exact Or.inl rfl
    · by_cases h2 : StrokesState.outside_viewport vp p.2 = true
      · rw [selector_step_of_outside sb vp st p.1 p.2 h2]
        exact Or.inl rfl
      · rcases h3 : st.selection_components.get p.1 with _ | c
        · rw [selector_step_of_no_selcomp sb vp st p.1 p.2 h3]
          exact Or.inl rfl
        · rw [selector_step_of_selcomp sb vp st p.1 p.2 c
            (by simp at h1; exact h1) (by simp at h2; exact h2) h3]
          by_cases h4 : StrokesState.hit_stamps sb p.2
          · rw [if_pos h4]
            by_cases hqk : q = p.1
            · rw [hqk]
              rcases hc : st.chrono_components.get p.1 with _ | c2
              · left
                rw [StrokesState.stamp_chrono_get_none (sel_set st p.1
                  (StrokesState.hit_verdict sb p.2)) p.1 hc]
                exact hc
              · right
                have hsome := StrokesState.stamp_chrono_get_some
                  (sel_set st p.1 (StrokesState.hit_verdict sb p.2)) p.1 c2 hc
                rw [sel_set_chrono_counter] at hsome
                exact ⟨by rw [hsome.2, hsome.1], hsome.1⟩
            · left
              exact StrokesState.stamp_chrono_get_ne _ _ _ hqk
          · rw [if_neg h4]
            exact Or.inl rfl

theorem selector_step_selected_ne (sb : AABB) (vp : Option AABB) (st : StrokesState)
    (k : Nat) (stroke : StrokeStyle) (q : Nat) (hqk : q ≠ k) :
    (StrokesState.selector_step sb vp st k stroke).selected q = st.selected q := by
  by_cases h1 : st.stroke_hidden k = true
  · rw [selector_step_of_hidden sb vp st k stroke h1]
  · by_cases h2 : StrokesState.outside_viewport vp stroke = true
    · rw [selector_step_of_outside sb vp st k stroke h2]
    · rcases h3 : st.selection_components.get k with _ | c
      · rw [selector_step_of_no_selcomp sb vp st k stroke h3]
      · rw [selector_step_of_selcomp sb vp st k stroke c
          (by simp at h1; exact h1) (by simp at h2; exact h2) h3]
        unfold StrokesState.selected
        by_cases h4 : StrokesState.hit_stamps sb stroke
        · rw [if_pos h4, StrokesState.stamp_chrono_selection_components,
            sel_set_selection_components, Table.get_set_ne _ _ _ _ hqk]
        · rw [if_neg h4, sel_set_selection_components, Table.get_set_ne _ _ _ _ hqk]

theorem selector_step_selected_self (sb : AABB) (vp : Option AABB)
    (st : StrokesState) (k : Nat) (stroke : StrokeStyle) (c : SelectionComponent)
    (h1 : st.stroke_hidden k = false)
    (h2 : StrokesState.outside_viewport vp stroke = false)
    (h3 : st.selection_components.get k = some c) :
    (StrokesState.selector_step sb vp st k stroke).selected k
      = some (StrokesState.hit_verdict sb stroke) := by
  rw [selector_step_of_selcomp sb vp st k stroke c h1 h2 h3]
  unfold StrokesState.selected
  by_cases h4 : StrokesState.hit_stamps sb stroke
  · rw [if_pos h4, StrokesState.stamp_chrono_selection_components,
      sel_set_selection_components, Table.get_set_self, h3]
    rfl
  · rw [if_neg h4, sel_set_selection_components, Table.get_set_self, h3]
    rfl

theorem selector_step_chrono_ne (sb : AABB) (vp : Option AABB) (st : StrokesState)
    (k : Nat) (stroke : StrokeStyle) (q : Nat) (hqk : q ≠ k) :
    (StrokesState.selector_step sb vp st k stroke).chrono_components.get q
      = st.chrono_components.get q := by
  by_cases h1 : st.stroke_hidden k = true
  · rw [selector_step_of_hidden sb vp st k stroke h1]
  · by_cases h2 : StrokesState.outside_viewport vp stroke = true
    · rw [selector_step_of_outside sb vp st k stroke h2]
    · rcases h3 : st.selection_components.get k with _ | c
      · rw [selector_step_of_no_selcomp sb vp st k stroke h3]
      · rw [selector_step_of_selcomp sb vp st k stroke c
          (by simp at h1; exact h1) (by simp at h2; exact h2) h3]
        by_cases h4 : StrokesState.hit_stamps sb stroke
        · rw [if_pos h4]
          exact StrokesState.stamp_chrono_get_ne _ _ _ hqk
        · rw [if_neg h4]
          rfl

theorem selector_step_chrono_self_no_stamp (sb : AABB) (vp : Option AABB)
    (st : StrokesState) (k : Nat) (stroke : StrokeStyle)
    (h : stamp_here st sb vp (k, stroke) = false) :
    (StrokesState.selector_step sb vp st k stroke).chrono_components.get k
      = st.chrono_components.get k := by
  by_cases h1 : st.stroke_hidden k = true
  · rw [selector_step_of_hidden sb vp st k stroke h1]
  · by_cases h2 : StrokesState.outside_viewport vp stroke = true
    · rw [selector_step_of_outside sb vp st k stroke h2]
    · rcases h3 : st.selection_components.get k with _ | c
      · rw [selector_step_of_no_selcomp sb vp st k stroke h3]
      · rw [selector_step_of_selcomp sb vp st k stroke c
          (by simp at h1; exact h1) (by simp at h2; exact h2) h3]
        by_cases h4 : StrokesState.hit_stamps sb stroke
        · rw [if_pos h4]
          rcases hc : st.chrono_components.get k with _ | c2
          · rw [StrokesState.stamp_chrono_get_none (sel_set st k
              (StrokesState.hit_verdict sb stroke)) k hc]
            exact hc
          · exfalso
            simp [stamp_here, h1, h2, h3, h4, hc] at h
        · rw [if_neg h4]
          rfl

theorem selector_step_chrono_self_stamp (sb : AABB) (vp : Option AABB)
    (st : StrokesState) (k : Nat) (stroke : StrokeStyle)
    (h : stamp_here st sb vp (k, stroke) = true) :
    (StrokesState.selector_step sb vp st k stroke).chrono_components.get k
        = some ⟨st.chrono_counter + 1⟩ ∧
    (StrokesState.selector_step sb vp st k stroke).chrono_counter
        = st.chrono_counter + 1 := by
  have h1 : st.stroke_hidden k = false := by
    rcases hh : st.stroke_hidden k with _ | _
    · rfl
    · simp [stamp_here, hh] at h
  have h2 : StrokesState.outside_viewport vp stroke = false := by
    rcases hh : StrokesState.outside_viewport vp stroke with _ | _
    · rfl
    · simp [stamp_here, hh] at h
  have h4 : StrokesState.hit_stamps sb stroke = true := by
    rcases hh : StrokesState.hit_stamps sb stroke with _ | _
    · simp [stamp_here, hh] at h
    · rfl
  rcases hc : st.selection_components.get k with _ | c
  · exfalso
    simp [stamp_here, hc] at h
  rcases hcc : st.chrono_components.get k with _ | c2
  · exfalso
    simp [stamp_here, hcc] at h
  rw [selector_step_of_selcomp sb vp st k stroke c h1 h2 hc, if_pos h4]
  have hsome := StrokesState.stamp_chrono_get_some
    (sel_set st k (StrokesState.hit_verdict sb stroke)) k c2 hcc
  rw [sel_set_chrono_counter] at hsome
  exact ⟨hsome.2, hsome.1⟩

theorem selector_step_sel_keys (sb : AABB) (vp : Option AABB) (st : StrokesState)
    (k : Nat) (stroke : StrokeStyle) :
    (StrokesState.selector_step sb vp st k stroke).selection_components.keys
      = st.selection_components.keys := by
  by_cases h1 : st.stroke_hidden k = true
  · rw [selector_step_of_hidden sb vp st k stroke h1]
  · by_cases h2 : StrokesState.outside_viewport vp stroke = true
    · rw [selector_step_of_outside sb vp st k stroke h2]
    · rcases h3 : st.selection_components.get k with _ | c
      · rw [selector_step_of_no_selcomp sb vp st k stroke h3]
      · rw [selector_step_of_selcomp sb vp st k stroke c
          (by simp at h1; exact h1) (by simp at h2; exact h2) h3]
        by_cases h4 : StrokesState.hit_stamps sb stroke
        · rw [if_pos h4, StrokesState.stamp_chrono_selection_components,
            sel_set_selection_components, Table.keys_set]
        · rw [if_neg h4, sel_set_selection_components, Table.keys_set]

theorem selector_step_chrono_keys (sb : AABB) (vp : Option AABB) (st : StrokesState)
    (k : Nat) (stroke : StrokeStyle) :
    (StrokesState.selector_step sb vp st k stroke).chrono_components.keys
      = st.chrono_components.keys := by
  by_cases h1 : st.stroke_hidden k = true
  · rw [selector_step_of_hidden sb vp st k stroke h1]
  · by_cases h2 : StrokesState.outside_viewport vp stroke = true
    · rw [selector_step_of_outside sb vp st k stroke h2]
    · rcases h3 : st.selection_components.get k with _ | c
      · rw [selector_step_of_no_selcomp sb vp st k stroke h3]
      · rw [selector_step_of_selcomp sb vp st k stroke c
          (by simp at h1; exact h1) (by simp at h2; exact h2) h3]
        by_cases h4 : StrokesState.hit_stamps sb stroke
        · rw [if_pos h4, StrokesState.stamp_chrono_chrono_keys,
            sel_set_chrono_components]
        · rw [if_neg h4, sel_set_chrono_components]

end SelectorStepLemmas

section SelScanLemmas

theorem sel_scan_nil (sb : AABB) (vp : Option AABB) (st : StrokesState) :
    sel_scan sb vp [] st = st := rfl

theorem sel_scan_cons (sb : AABB) (vp : Option AABB) (p : Nat × StrokeStyle)
    (l : Table StrokeStyle) (st : StrokesState) :
    sel_scan sb vp (p :: l) st
      = sel_scan sb vp l (StrokesState.selector_step sb vp st p.1 p.2) := rfl

theorem sel_scan_append (sb : AABB) (vp : Option AABB) (l1 l2 : Table StrokeStyle)
    (st : StrokesState) :
    sel_scan sb vp (l1 ++ l2) st = sel_scan sb vp l2 (sel_scan sb vp l1 st) := by
  unfold sel_scan
  rw [List.foldl_append]

theorem sel_scan_render (sb : AABB) (vp : Option AABB) (l : Table StrokeStyle)
    (st : StrokesState) :
    (sel_scan sb vp l st).render_components = st.render_components := by
  unfold sel_scan
  exact foldl_selchrono_only_render_components _
    (fun st p => StrokesState.selector_step_frame sb vp st p.1 p.2) l st

theorem sel_scan_trash (sb : AABB) (vp : Option AABB) (l : Table StrokeStyle)
    (st : StrokesState) :
    (sel_scan sb vp l st).trash_components = st.trash_components := by
  unfold sel_scan
  exact foldl_selchrono_only_trash_components _
    (fun st p => StrokesState.selector_step_frame sb vp st p.1 p.2) l st

theorem sel_scan_strokes (sb : AABB) (vp : Option AABB) (l : Table StrokeStyle)
    (st : StrokesState) :
    (sel_scan sb vp l st).strokes = st.strokes := by
  unfold sel_scan
  exact foldl_selchrono_only_strokes _
    (fun st p => StrokesState.selector_step_frame sb vp st p.1 p.2) l st

theorem sel_scan_sel_keys (sb : AABB) (vp : Option AABB) (l : Table StrokeStyle) :
    ∀ st : StrokesState, (sel_scan sb vp l st).selection_components.keys
      = st.selection_components.keys := by
  induction l with
  | nil => exact fun st => rfl
  | cons p l ih =>
      intro st
      rw [sel_scan_cons, ih, selector_step_sel_keys]

theorem sel_scan_chrono_keys (sb : AABB) (vp : Option AABB) (l : Table StrokeStyle) :
    ∀ st : StrokesState, (sel_scan sb vp l st).chrono_components.keys
      = st.chrono_components.keys := by
  induction l with
  | nil => exact fun st => rfl
  | cons p l ih =>
      intro st
      rw [sel_scan_cons, ih, selector_step_chrono_keys]

theorem stamp_here_step_congr (sb : AABB) (vp : Option AABB) (st : StrokesState)
    (p p2 : Nat × StrokeStyle) :
    stamp_here (StrokesState.selector_step sb vp st p.1 p.2) sb vp p2
      = stamp_here st sb vp p2 := by
  rcases StrokesState.selector_step_frame sb vp st p.1 p.2 with ⟨sc, cc, n, heq⟩
  have hr : (StrokesState.selector_step sb vp st p.1 p.2).render_components
      = st.render_components := by rw [heq]
  have ht : (StrokesState.selector_step sb vp st p.1 p.2).trash_components
      = st.trash_components := by rw [heq]
  unfold stamp_here
  rw [StrokesState.stroke_hidden_congr st _ p2.1 hr ht,
    Table.isSome_get_congr _ _ p2.1 (selector_step_sel_keys sb vp st p.1 p.2),
    Table.isSome_get_congr _ _ p2.1 (selector_step_chrono_keys sb vp st p.1 p.2)]

theorem sel_scan_counter (sb : AABB) (vp : Option AABB) (l : Table StrokeStyle) :
    ∀ st : StrokesState, (sel_scan sb vp l st).chrono_counter
      = st.chrono_counter + l.countP (stamp_here st sb vp) := by
  induction l with
  | nil => intro st; simp [sel_scan_nil]
  | cons p l ih =>
      intro st
      rw [sel_scan_cons, ih]
      have hcong : l.countP (stamp_here (StrokesState.selector_step sb vp st p.1 p.2) sb vp)
          = l.countP (stamp_here st sb vp) := by
        refine List.countP_congr (fun q _ => ?_)
        rw [stamp_here_step_congr]
      rw [hcong, selector_step_counter, List.countP_cons]
      by_cases hp : stamp_here st sb vp p = true
      · simp only [hp, if_true]
        omega
      · simp only [Bool.not_eq_true] at hp
        simp only [hp, Bool.false_eq_true, if_false]
        omega

theorem sel_scan_counter_mono (sb : AABB) (vp : Option AABB) (l : Table StrokeStyle)
    (st : StrokesState) :
    st.chrono_counter ≤ (sel_scan sb vp l st).chrono_counter := by
  unfold sel_scan
  refine counter_mono_fold _ (fun st2 p => ?_) l st
  rw [selector_step_counter]
  exact Nat.le_add_right _ _

theorem sel_scan_selected_not_mem (sb : AABB) (vp : Option AABB)
    (l : Table StrokeStyle) :
    ∀ (st : StrokesState) (k : Nat), k ∉ Table.keys l →
      (sel_scan sb vp l st).selected k = st.selected k := by
  induction l with
  | nil => exact fun st k _ => rfl
  | cons p l ih =>
      intro st k hk
      have hk1 : k ≠ p.1 := by
        intro hkp
        exact hk (hkp ▸ List.mem_cons_self _ _)
      have hk2 : k ∉ Table.keys l := by
        intro hkl
        exact hk (List.mem_cons_of_mem _ hkl)
      rw [sel_scan_cons, ih _ k hk2, selector_step_selected_ne sb vp st p.1 p.2 k hk1]

theorem sel_scan_chrono_not_mem (sb : AABB) (vp : Option AABB)
    (l : Table StrokeStyle) :
    ∀ (st : StrokesState) (k : Nat), k ∉ Table.keys l →
      (sel_scan sb vp l st).chrono_components.get k
        = st.chrono_components.get k := by
  induction l with
  | nil => exact fun st k _ => rfl
  | cons p l ih =>
      intro st k hk
      have hk1 : k ≠ p.1 := by
        intro hkp
        exact hk (hkp ▸ List.mem_cons_self _ _)
      have hk2 : k ∉ Table.keys l := by
        intro hkl
        exact hk (List.mem_cons_of_mem _ hkl)
      rw [sel_scan_cons, ih _ k hk2, selector_step_chrono_ne sb vp st p.1 p.2 k hk1]

theorem StrokesState.regenerate_chrono_components (s : StrokesState) :
    s.regenerate_rendering_for_selection_threaded.chrono_components
      = s.chrono_components := by
  unfold StrokesState.regenerate_rendering_for_selection_threaded
  rw [foldl_render_only_chrono_components _ StrokesState.regenerate_step_frame]

theorem StrokesState.regenerate_chrono_counter (s : StrokesState) :
    s.regenerate_rendering_for_selection_threaded.chrono_counter
      = s.chrono_counter := by
  unfold StrokesState.regenerate_rendering_for_selection_threaded
  rw [foldl_render_only_chrono_counter _ StrokesState.regenerate_step_frame]

theorem update_selector_eq_some (s : StrokesState) (sel : Selector)
    (vp : Option AABB) (sb : AABB) (hb : sel.bounds = some sb) :
    s.update_selection_for_selector sel vp =
      (if (sel_scan sb vp s.strokes s).selection_len ≠ s.selection_len then
        (((sel_scan sb vp s.strokes
            s).update_selection_bounds).regenerate_rendering_for_selection_threaded,
          true)
      else (sel_scan sb vp s.strokes s, false)) := by
  unfold StrokesState.update_selection_for_selector sel_scan
  rw [hb]

theorem update_selector_selected (s : StrokesState) (sel : Selector)
    (vp : Option AABB) (sb : AABB) (hb : sel.bounds = some sb) (k : Nat) :
    (s.update_selection_for_selector sel vp).1.selected k
      = (sel_scan sb vp s.strokes s).selected k := by
  rw [update_selector_eq_some s sel vp sb hb]
  by_cases hlen : (sel_scan sb vp s.strokes s).selection_len ≠ s.selection_len
  · rw [if_pos hlen]
    dsimp only
    unfold StrokesState.selected
    rw [StrokesState.regenerate_selection_components,
      StrokesState.update_selection_bounds_selection_components]
  · rw [if_neg hlen]

theorem update_selector_chrono_get (s : StrokesState) (sel : Selector)
    (vp : Option AABB) (sb : AABB) (hb : sel.bounds = some sb) (k : Nat) :
    (s.update_selection_for_selector sel vp).1.chrono_components.get k
      = (sel_scan sb vp s.strokes s).chrono_components.get k := by
  rw [update_selector_eq_some s sel vp sb hb]
  by_cases hlen : (sel_scan sb vp s.strokes s).selection_len ≠ s.selection_len
  · rw [if_pos hlen]
    dsimp only
    rw [StrokesState.regenerate_chrono_components,
      StrokesState.update_selection_bounds_chrono_components]
  · rw [if_neg hlen]

theorem update_selector_counter (s : StrokesState) (sel : Selector)
    (vp : Option AABB) (sb : AABB) (hb : sel.bounds = some sb) :
    (s.update_selection_for_selector sel vp).1.chrono_counter
      = (sel_scan sb vp s.strokes s).chrono_counter := by
  rw [update_selector_eq_some s sel vp sb hb]
  by_cases hlen : (sel_scan sb vp s.strokes s).selection_len ≠ s.selection_len
  · rw [if_pos hlen]
    dsimp only
    rw [StrokesState.regenerate_chrono_counter,
      StrokesState.update_selection_bounds_chrono_counter]
  · rw [if_neg hlen]

end SelScanLemmas

section ClaimC3

theorem hit_verdict_iff (sb : AABB) (stroke : StrokeStyle) :
    StrokesState.hit_verdict sb stroke = true ↔
      (sb.contains stroke.bounds = true ∨
        ∃ hbx, stroke.hitbox = some hbx ∧ sb.intersects stroke.bounds = true ∧
          ∀ e ∈ hbx, sb.contains e = true) := by
  cases stroke with
  | markerStroke b hb =>
      simp only [StrokesState.hit_verdict, StrokeStyle.hitbox, StrokeStyle.bounds]
      by_cases hc : sb.contains b = true
      · simp [hc]
      · by_cases hi : sb.intersects b = true
        · simp [hc, hi, List.all_eq_true]
        · simp [hc, hi]
  | brushStroke b hb =>
      simp only [StrokesState.hit_verdict, StrokeStyle.hitbox, StrokeStyle.bounds]
      by_cases hc : sb.contains b = true
      · simp [hc]
      · by_cases hi : sb.intersects b = true
        · simp [hc, hi, List.all_eq_true]
        · simp [hc, hi]
  | shapeStroke b =>
      simp [StrokesState.hit_verdict, StrokeStyle.hitbox, StrokeStyle.bounds]
  | vectorImage b =>
      simp [StrokesState.hit_verdict, StrokeStyle.hitbox, StrokeStyle.bounds]
  | bitmapImage b =>
      simp [StrokesState.hit_verdict, StrokeStyle.hitbox, StrokeStyle.bounds]

/-- C3: an eligible stroke (not hidden, intersecting the viewport when one is
supplied, and carrying a selection component) ends the selector pass selected
exactly when the selector's bounds fully contain the stroke's bounds, or, for
the freehand variants carrying a hitbox, when the selector's bounds intersect
the stroke's bounds and fully contain every hitbox sub-region; variants
without a hitbox are never selected by partial overlap. -/
theorem selector_hit_test (s : StrokesState) (sel : Selector) (vp : Option AABB)
    (sb : AABB) (k : Nat) (stroke : StrokeStyle) (rc : RenderComponent)
    (tc : TrashComponent)
    (hb : sel.bounds = some sb)
    (hnd : s.strokes.keys.Nodup)
    (hmem : (k, stroke) ∈ s.strokes)
    (hrc : s.render_components.get k = some rc) (hrender : rc.render = true)
    (htc : s.trash_components.get k = some tc) (htrash : tc.trashed = false)
    (hvp : StrokesState.outside_viewport vp stroke = false)
    (hsel : (s.selection_components.get k).isSome = true) :
    (s.update_selection_for_selector sel vp).1.selected k
        = some (StrokesState.hit_verdict sb stroke) ∧
    ((s.update_selection_for_selector sel vp).1.selected k = some true ↔
      (sb.contains stroke.bounds = true ∨
        ∃ hbx, stroke.hitbox = some hbx ∧ sb.intersects stroke.bounds = true ∧
          ∀ e ∈ hbx, sb.contains e = true)) := by
  have hhid : s.stroke_hidden k = false := by
    unfold StrokesState.stroke_hidden
    rw [hrc, htc]
    simp [hrender, htrash]
  obtain ⟨l1, l2, hsplit⟩ := List.append_of_mem hmem
  have hkeys : Table.keys s.strokes
      = Table.keys l1 ++ k :: Table.keys l2 := by
    rw [hsplit]
    unfold Table.keys
    simp
  rw [hkeys] at hnd
  have hnotl1 : k ∉ Table.keys l1 := by
    have hd := (List.nodup_append.mp hnd).2.2
    intro hk
    exact hd hk (List.mem_cons_self k _)
  have hnotl2 : k ∉ Table.keys l2 := by
    have h2 := (List.nodup_append.mp hnd).2.1
    exact (List.nodup_cons.mp h2).1
  have hFsplit : sel_scan sb vp s.strokes s
      = sel_scan sb vp l2
          (StrokesState.selector_step sb vp (sel_scan sb vp l1 s) k stroke) := by
    rw [hsplit, sel_scan_append, sel_scan_cons]
  have hr1 : (sel_scan sb vp l1 s).render_components = s.render_components :=
    sel_scan_render sb vp l1 s
  have ht1 : (sel_scan sb vp l1 s).trash_components = s.trash_components :=
    sel_scan_trash sb vp l1 s
  have hhid1 : (sel_scan sb vp l1 s).stroke_hidden k = false :=
    (StrokesState.stroke_hidden_congr s _ k hr1 ht1).trans hhid
  have hsel1 : ((sel_scan sb vp l1 s).selection_components.get k).isSome = true :=
    (Table.isSome_get_congr _ _ k (sel_scan_sel_keys sb vp l1 s)).trans hsel
  obtain ⟨c1, hc1⟩ : ∃ c, (sel_scan sb vp l1 s).selection_components.get k = some c := by
    rcases hg : (sel_scan sb vp l1 s).selection_components.get k with _ | c
    · rw [hg] at hsel1
      cases hsel1
    · exact ⟨c, rfl⟩
  have hstep : (StrokesState.selector_step sb vp (sel_scan sb vp l1 s) k
      stroke).selected k = some (StrokesState.hit_verdict sb stroke) :=
    selector_step_selected_self sb vp _ k stroke c1 hhid1 hvp hc1
  have hafter : (sel_scan sb vp s.strokes s).selected k
      = some (StrokesState.hit_verdict sb stroke) := by
    rw [hFsplit, sel_scan_selected_not_mem sb vp l2 _ k hnotl2, hstep]
  have hfinal : (s.update_selection_for_selector sel vp).1.selected k
      = some (StrokesState.hit_verdict sb stroke) :=
    (update_selector_selected s sel vp sb hb k).trans hafter
  refine ⟨hfinal, ?_⟩
  rw [hfinal]
  constructor
  · intro h
    have hv : StrokesState.hit_verdict sb stroke = true := by
      injection h
    exact (hit_verdict_iff sb stroke).mp hv
  · intro h
    rw [(hit_verdict_iff sb stroke).mpr h]

theorem selector_hit_test_witness :
    (exStateA.update_selection_for_selector exSelectorB none).1.selected 1
        = some (StrokesState.hit_verdict ⟨9, 9, 12, 12⟩ (.shapeStroke ⟨10, 10, 11, 11⟩)) ∧
    ((exStateA.update_selection_for_selector exSelectorB none).1.selected 1 = some true ↔
      (AABB.contains ⟨9, 9, 12, 12⟩ (StrokeStyle.shapeStroke ⟨10, 10, 11, 11⟩).bounds = true ∨
        ∃ hbx, (StrokeStyle.shapeStroke ⟨10, 10, 11, 11⟩).hitbox = some hbx ∧
          AABB.intersects ⟨9, 9, 12, 12⟩ (StrokeStyle.shapeStroke ⟨10, 10, 11, 11⟩).bounds
            = true ∧
          ∀ e ∈ hbx, AABB.contains ⟨9, 9, 12, 12⟩ e = true)) :=
  selector_hit_test exStateA exSelectorB none ⟨9, 9, 12, 12⟩ 1
    (.shapeStroke ⟨10, 10, 11, 11⟩) (exRender ⟨10, 10, 11, 11⟩) ⟨false⟩
    (by decide) (by decide) (by decide) (by decide) (by decide) (by decide)
    (by decide) (by decide) (by decide)

end ClaimC3

section ClaimC4

/-- One unselected marker stroke whose bounds the selector fully contains. -/
def exStateMarker : StrokesState :=
  { strokes := [(0, .markerStroke ⟨0, 0, 4, 4⟩ [⟨0, 0, 2, 2⟩, ⟨2, 2, 4, 4⟩])],
    selection_components := [(0, ⟨false⟩)],
    chrono_components := [(0, ⟨0⟩)],
    render_components := [(0, exRender ⟨0, 0, 4, 4⟩)],
    trash_components := [(0, ⟨false⟩)],
    chrono_counter := 5, selection_bounds := none, zoom := 1, next_key := 1 }

/-- A selector box fully containing the marker stroke of `exStateMarker`. -/
def exSelectorWide : Selector := ⟨some ⟨-1, -1, 5, 5⟩⟩

/-- C4 counterexample: the marker stroke transitions into the selected state
(via the full-containment branch), yet neither the global chrono counter nor
the stroke's chrono component changes — contradicting "every stroke that
transitions into the selected state has the chrono counter advanced and its
chrono component stamped". -/
theorem selector_chrono_counterexample :
    exStateMarker.selected 0 = some false ∧
    (exStateMarker.update_selection_for_selector exSelectorWide none).1.selected 0
      = some true ∧
    (exStateMarker.update_selection_for_selector exSelectorWide none).1.chrono_counter
      = exStateMarker.chrono_counter ∧
    (exStateMarker.update_selection_for_selector
        exSelectorWide none).1.chrono_components.get 0
      = some ⟨0⟩ := by
  decide

theorem hit_stamps_imp_verdict (sb : AABB) (stroke : StrokeStyle)
    (h : StrokesState.hit_stamps sb stroke = true) :
    StrokesState.hit_verdict sb stroke = true := by
  cases stroke with
  | markerStroke b hb =>
      simp only [StrokesState.hit_stamps, Bool.and_eq_true, Bool.not_eq_eq_eq_not,
        Bool.not_true] at h
      simp [StrokesState.hit_verdict, h.1.1, h.1.2, h.2]
  | brushStroke b hb =>
      simp only [StrokesState.hit_stamps, Bool.and_eq_true, Bool.not_eq_eq_eq_not,
        Bool.not_true] at h
      simp [StrokesState.hit_verdict, h.1.1, h.1.2, h.2]
  | shapeStroke b => exact h
  | vectorImage b => exact h
  | bitmapImage b => exact h

/-- C4 amended: during one `update_selection_for_selector` pass the chrono
counter advances exactly once per processed stroke on a stamping hit-test
branch (the hitbox path of the freehand variants or the containment path of
the other variants); each such stroke is stamped with a fresh counter value;
all other strokes keep their chrono component unchanged; only strokes ending
the pass selected can stamp, so no deselection advances the counter.  In
particular a freehand stroke selected because the selector fully contains its
bounds is not stamped. -/
theorem selector_chrono_amended (s : StrokesState) (sel : Selector)
    (vp : Option AABB) (sb : AABB) (k : Nat) (stroke : StrokeStyle)
    (hb : sel.bounds = some sb)
    (hnd : s.strokes.keys.Nodup)
    (hmem : (k, stroke) ∈ s.strokes) :
    (s.update_selection_for_selector sel vp).1.chrono_counter
        = s.chrono_counter + s.strokes.countP (stamp_here s sb vp) ∧
    (∀ q : Nat × StrokeStyle, stamp_here s sb vp q = true →
      StrokesState.hit_verdict sb q.2 = true) ∧
    (stamp_here s sb vp (k, stroke) = false →
      (s.update_selection_for_selector sel vp).1.chrono_components.get k
        = s.chrono_components.get k) ∧
    (stamp_here s sb vp (k, stroke) = true →
      ∃ c2, (s.update_selection_for_selector sel vp).1.chrono_components.get k
          = some c2 ∧
        s.chrono_counter < c2.t ∧
        c2.t ≤ (s.update_selection_for_selector sel vp).1.chrono_counter) := by
  obtain ⟨l1, l2, hsplit⟩ := List.append_of_mem hmem
  have hkeys : Table.keys s.strokes = Table.keys l1 ++ k :: Table.keys l2 := by
    rw [hsplit]
    unfold Table.keys
    simp
  rw [hkeys] at hnd
  have hnotl1 : k ∉ Table.keys l1 := by
    have hd := (List.nodup_append.mp hnd).2.2
    intro hk
    exact hd hk (List.mem_cons_self k _)
  have hnotl2 : k ∉ Table.keys l2 := by
    have h2 := (List.nodup_append.mp hnd).2.1
    exact (List.nodup_cons.mp h2).1
  have hFsplit : sel_scan sb vp s.strokes s
      = sel_scan sb vp l2
          (StrokesState.selector_step sb vp (sel_scan sb vp l1 s) k stroke) := by
    rw [hsplit, sel_scan_append, sel_scan_cons]
  have hcnt : (s.update_selection_for_selector sel vp).1.chrono_counter
      = s.chrono_counter + s.strokes.countP (stamp_here s sb vp) := by
    rw [update_selector_counter s sel vp sb hb, sel_scan_counter]
  have hstamp1 : ∀ p2 : Nat × StrokeStyle,
      stamp_here (sel_scan sb vp l1 s) sb vp p2 = stamp_here s sb vp p2 := by
    intro p2
    have hr1 := sel_scan_render sb vp l1 s
    have ht1 := sel_scan_trash sb vp l1 s
    unfold stamp_here
    rw [StrokesState.stroke_hidden_congr s _ p2.1 hr1 ht1,
      Table.isSome_get_congr _ _ p2.1 (sel_scan_sel_keys sb vp l1 s),
      Table.isSome_get_congr _ _ p2.1 (sel_scan_chrono_keys sb vp l1 s)]
  have hchr1 : (sel_scan sb vp l1 s).chrono_components.get k
      = s.chrono_components.get k :=
    sel_scan_chrono_not_mem sb vp l1 s k hnotl1
  refine ⟨hcnt, fun q hq => hit_stamps_imp_verdict sb q.2 (by
      unfold stamp_here at hq
      simp only [Bool.and_eq_true] at hq
      exact hq.1.2), ?_, ?_⟩
  · intro hno
    rw [update_selector_chrono_get s sel vp sb hb k, hFsplit,
      sel_scan_chrono_not_mem sb vp l2 _ k hnotl2,
      selector_step_chrono_self_no_stamp sb vp _ k stroke
        (by rw [hstamp1 (k, stroke)]; exact hno), hchr1]
  · intro hyes
    have hyes1 : stamp_here (sel_scan sb vp l1 s) sb vp (k, stroke) = true := by
      rw [hstamp1 (k, stroke)]
      exact hyes
    have hstep := selector_step_chrono_self_stamp sb vp (sel_scan sb vp l1 s) k
      stroke hyes1
    have hlo : s.chrono_counter ≤ (sel_scan sb vp l1 s).chrono_counter :=
      sel_scan_counter_mono sb vp l1 s
    have hrange := chrono_range_fold
      (fun st p => StrokesState.selector_step sb vp st p.1 p.2)
      (fun st p => selector_step_good sb vp st p) l2
      (StrokesState.selector_step sb vp (sel_scan sb vp l1 s) k stroke) k
      s.chrono_counter ⟨(sel_scan sb vp l1 s).chrono_counter + 1⟩
      hstep.1 (by simp only []; omega) (by rw [hstep.2])
    rcases hrange with ⟨c2, hg, hlt, hle⟩
    refine ⟨c2, ?_, hlt, ?_⟩
    · rw [update_selector_chrono_get s sel vp sb hb k, hFsplit]
      exact hg
    · rw [update_selector_counter s sel vp sb hb, hFsplit]
      exact hle

theorem selector_chrono_amended_witness :
    (exStateA.update_selection_for_selector exSelectorB none).1.chrono_counter
        = exStateA.chrono_counter
          + exStateA.strokes.countP (stamp_here exStateA ⟨9, 9, 12, 12⟩ none) ∧
    ∃ c2, (exStateA.update_selection_for_selector
          exSelectorB none).1.chrono_components.get 1 = some c2 ∧
      exStateA.chrono_counter < c2.t ∧
      c2.t ≤ (exStateA.update_selection_for_selector exSelectorB none).1.chrono_counter := by
  have h := selector_chrono_amended exStateA exSelectorB none ⟨9, 9, 12, 12⟩ 1
    (.shapeStroke ⟨10, 10, 11, 11⟩) (by decide) (by decide) (by decide)
  exact ⟨h.1, h.2.2.2 (by decide)⟩

end ClaimC4

section InvariantLemmas

theorem StrokesState.keys_selection_congr (s t : StrokesState)
    (h : t.selection_components = s.selection_components) :
    t.keys_selection = s.keys_selection := by
  unfold StrokesState.keys_selection
  rw [h]

theorem StrokesState.gen_bounds_congr (s t : StrokesState) (keys : List Nat)
    (h : t.strokes = s.strokes) : t.gen_bounds keys = s.gen_bounds keys := by
  unfold StrokesState.gen_bounds StrokesState.bounds_list
  rw [h]

theorem affine_min (a b m d s : ℚ) (hs : 0 ≤ s) :
    (min a b - m) * s + d = min ((a - m) * s + d) ((b - m) * s + d) := by
  rcases le_total a b with h | h
  · rw [min_eq_left h, min_eq_left]
    nlinarith
  · rw [min_eq_right h, min_eq_right]
    nlinarith

theorem affine_max (a b m d s : ℚ) (hs : 0 ≤ s) :
    (max a b - m) * s + d = max ((a - m) * s + d) ((b - m) * s + d) := by
  rcases le_total a b with h | h
  · rw [max_eq_right h, max_eq_right]
    nlinarith
  · rw [max_eq_left h, max_eq_left]
    nlinarith

/-- The affine image of one AABB under the group map of `resize_selection`
sending the old group bounds `B` to the new bounds `N`, exactly as
`calc_new_stroke_bounds` computes it. -/
def resize_aabb (B N a : AABB) : AABB :=
  ⟨(a.minsX - B.minsX) * (N.extentsX / B.extentsX) + B.minsX + (N.minsX - B.minsX),
   (a.minsY - B.minsY) * (N.extentsY / B.extentsY) + B.minsY + (N.minsY - B.minsY),
   (a.minsX - B.minsX) * (N.extentsX / B.extentsX) + B.minsX + (N.minsX - B.minsX)
     + a.extentsX * (N.extentsX / B.extentsX),
   (a.minsY - B.minsY) * (N.extentsY / B.extentsY) + B.minsY + (N.minsY - B.minsY)
     + a.extentsY * (N.extentsY / B.extentsY)⟩

theorem calc_eq_resize_aabb (st : StrokeStyle) (B N : AABB) :
    StrokesState.calc_new_stroke_bounds st B N = resize_aabb B N st.bounds := rfl

theorem resize_aabb_maxsX (B N a : AABB) :
    (resize_aabb B N a).maxsX
      = (a.maxsX - B.minsX) * (N.extentsX / B.extentsX) + B.minsX
        + (N.minsX - B.minsX) := by
  unfold resize_aabb AABB.extentsX
  dsimp only
  ring

theorem resize_aabb_maxsY (B N a : AABB) :
    (resize_aabb B N a).maxsY
      = (a.maxsY - B.minsY) * (N.extentsY / B.extentsY) + B.minsY
        + (N.minsY - B.minsY) := by
  unfold resize_aabb AABB.extentsY
  dsimp only
  ring

theorem resize_aabb_merged (B N a b : AABB)
    (hsx : 0 ≤ N.extentsX / B.extentsX) (hsy : 0 ≤ N.extentsY / B.extentsY) :
    resize_aabb B N (a.merged b)
      = (resize_aabb B N a).merged (resize_aabb B N b) := by
  have hmx := resize_aabb_maxsX B N (a.merged b)
  have hmxa := resize_aabb_maxsX B N a
  have hmxb := resize_aabb_maxsX B N b
  have hmy := resize_aabb_maxsY B N (a.merged b)
  have hmya := resize_aabb_maxsY B N a
  have hmyb := resize_aabb_maxsY B N b
  have hmergedX : (a.merged b).maxsX = max a.maxsX b.maxsX := rfl
  have hmergedY : (a.merged b).maxsY = max a.maxsY b.maxsY := rfl
  refine AABB.mk.injEq .. |>.mpr ⟨?_, ?_, ?_, ?_⟩
  · show (resize_aabb B N (a.merged b)).minsX = min (resize_aabb B N a).minsX
      (resize_aabb B N b).minsX
    unfold resize_aabb
    dsimp only
    rw [show (a.merged b).minsX = min a.minsX b.minsX from rfl]
    have := affine_min a.minsX b.minsX B.minsX
      (B.minsX + (N.minsX - B.minsX)) (N.extentsX / B.extentsX) hsx
    calc (min a.minsX b.minsX - B.minsX) * (N.extentsX / B.extentsX) + B.minsX
          + (N.minsX - B.minsX)
        = (min a.minsX b.minsX - B.minsX) * (N.extentsX / B.extentsX)
          + (B.minsX + (N.minsX - B.minsX)) := by ring
      _ = min ((a.minsX - B.minsX) * (N.extentsX / B.extentsX)
            + (B.minsX + (N.minsX - B.minsX)))
          ((b.minsX - B.minsX) * (N.extentsX / B.extentsX)
            + (B.minsX + (N.minsX - B.minsX))) := this
      _ = min ((a.minsX - B.minsX) * (N.extentsX / B.extentsX) + B.minsX
            + (N.minsX - B.minsX))
          ((b.minsX - B.minsX) * (N.extentsX / B.extentsX) + B.minsX
            + (N.minsX - B.minsX)) := by ring_nf
  · show (resize_aabb B N (a.merged b)).minsY = min (resize_aabb B N a).minsY
      (resize_aabb B N b).minsY
    unfold resize_aabb
    dsimp only
    rw [show (a.merged b).minsY = min a.minsY b.minsY from rfl]
    have := affine_min a.minsY b.minsY B.minsY
      (B.minsY + (N.minsY - B.minsY)) (N.extentsY / B.extentsY) hsy
    calc (min a.minsY b.minsY - B.minsY) * (N.extentsY / B.extentsY) + B.minsY
          + (N.minsY - B.minsY)
        = (min a.minsY b.minsY - B.minsY) * (N.extentsY / B.extentsY)
          + (B.minsY + (N.minsY - B.minsY)) := by ring
      _ = min ((a.minsY - B.minsY) * (N.extentsY / B.extentsY)
            + (B.minsY + (N.minsY - B.minsY)))
          ((b.minsY - B.minsY) * (N.extentsY / B.extentsY)
            + (B.minsY + (N.minsY - B.minsY))) := this
      _ = min ((a.minsY - B.minsY) * (N.extentsY / B.extentsY) + B.minsY
            + (N.minsY - B.minsY))
          ((b.minsY - B.minsY) * (N.extentsY / B.extentsY) + B.minsY
            + (N.minsY - B.minsY)) := by ring_nf
  · show (resize_aabb B N (a.merged b)).maxsX = max (resize_aabb B N a).maxsX
      (resize_aabb B N b).maxsX
    rw [hmx, hmxa, hmxb, hmergedX]
    have := affine_max a.maxsX b.maxsX B.minsX
      (B.minsX + (N.minsX - B.minsX)) (N.extentsX / B.extentsX) hsx
    calc (max a.maxsX b.maxsX - B.minsX) * (N.extentsX / B.extentsX) + B.minsX
          + (N.minsX - B.minsX)
        = (max a.maxsX b.maxsX - B.minsX) * (N.extentsX / B.extentsX)
          + (B.minsX + (N.minsX - B.minsX)) := by ring
      _ = max ((a.maxsX - B.minsX) * (N.extentsX / B.extentsX)
            + (B.minsX + (N.minsX - B.minsX)))
          ((b.maxsX - B.minsX) * (N.extentsX / B.extentsX)
            + (B.minsX + (N.minsX - B.minsX))) := this
      _ = max ((a.maxsX - B.minsX) * (N.extentsX / B.extentsX) + B.minsX
            + (N.minsX - B.minsX))
          ((b.maxsX - B.minsX) * (N.extentsX / B.extentsX) + B.minsX
            + (N.minsX - B.minsX)) := by ring_nf
  · show (resize_aabb B N (a.merged b)).maxsY = max (resize_aabb B N a).maxsY
      (resize_aabb B N b).maxsY
    rw [hmy, hmya, hmyb, hmergedY]
    have := affine_max a.maxsY b.maxsY B.minsY
      (B.minsY + (N.minsY - B.minsY)) (N.extentsY / B.extentsY) hsy
    calc (max a.maxsY b.maxsY - B.minsY) * (N.extentsY / B.extentsY) + B.minsY
          + (N.minsY - B.minsY)
        = (max a.maxsY b.maxsY - B.minsY) * (N.extentsY / B.extentsY)
          + (B.minsY + (N.minsY - B.minsY)) := by ring
      _ = max ((a.maxsY - B.minsY) * (N.extentsY / B.extentsY)
            + (B.minsY + (N.minsY - B.minsY)))
          ((b.maxsY - B.minsY) * (N.extentsY / B.extentsY)
            + (B.minsY + (N.minsY - B.minsY))) := this
      _ = max ((a.maxsY - B.minsY) * (N.extentsY / B.extentsY) + B.minsY
            + (N.minsY - B.minsY))
          ((b.maxsY - B.minsY) * (N.extentsY / B.extentsY) + B.minsY
            + (N.minsY - B.minsY)) := by ring_nf

theorem resize_aabb_fixed (B N : AABB)
    (hBx : B.extentsX ≠ 0) (hBy : B.extentsY ≠ 0) : resize_aabb B N B = N := by
  unfold AABB.extentsX at hBx
  unfold AABB.extentsY at hBy
  unfold resize_aabb AABB.extentsX AABB.extentsY
  refine AABB.mk.injEq .. |>.mpr ⟨by ring, by ring, ?_, ?_⟩
  · field_simp
  · field_simp

theorem merge_fold_map (f : AABB → AABB)
    (hf : ∀ a b, f (a.merged b) = (f a).merged (f b)) :
    ∀ l : List AABB, merge_fold (l.map f) = (merge_fold l).map f := by
  have hfold : ∀ (bs : List AABB) (b : AABB),
      (bs.map f).foldl AABB.merged (f b) = f (bs.foldl AABB.merged b) := by
    intro bs
    induction bs with
    | nil => intro b; rfl
    | cons c cs ih =>
        intro b
        rw [List.map_cons, List.foldl_cons, List.foldl_cons, ← hf, ih]
  intro l
  cases l with
  | nil => rfl
  | cons b bs =>
      simp only [List.map_cons, merge_fold, Option.map_some]
      rw [hfold]
      rfl

end InvariantLemmas

section OpInvariants

theorem filterMap_map_option {α β γ : Type} (f : α → Option β) (g : β → γ)
    (l : List α) :
    (l.filterMap f).map g = l.filterMap (fun a => (f a).map g) := by
  induction l with
  | nil => rfl
  | cons a l ih =>
      rcases h : f a with _ | b <;> simp [List.filterMap_cons, h, ih]

theorem StrokesState.bounds_list_translate (s : StrokesState) (ox oy : ℚ)
    (hnd : s.selection_components.keys.Nodup) :
    (s.translate_selection ox oy).bounds_list s.keys_selection
      = (s.bounds_list s.keys_selection).map (·.translate ox oy) := by
  unfold StrokesState.bounds_list
  rw [filterMap_map_option]
  refine List.filterMap_congr (fun k hk => ?_)
  have hsel : s.selected k = some true :=
    s.selected_of_mem_keys_selection k hnd hk
  rw [StrokesState.translate_selection_strokes]
  rw [Table.get_map_ite s.strokes (fun n => (s.selected n).getD false)
    (fun v => v.translate ox oy) k]
  rcases hg : s.strokes.get k with _ | st
  · rfl
  · simp [hsel, StrokeStyle.bounds_translate]

theorem StrokesState.translate_selection_inv (s : StrokesState) (ox oy : ℚ)
    (hnd : s.selection_components.keys.Nodup) (hinv : SelBoundsInv s) :
    SelBoundsInv (s.translate_selection ox oy) := by
  show (s.translate_selection ox oy).selection_bounds = _
  rw [StrokesState.translate_selection_bounds]
  have hks : (s.translate_selection ox oy).keys_selection = s.keys_selection :=
    StrokesState.keys_selection_congr s _
      (StrokesState.translate_selection_selection_components s ox oy)
  unfold StrokesState.gen_bounds
  rw [hks, StrokesState.bounds_list_translate s ox oy hnd,
    merge_fold_map _ (fun a b => AABB.merged_translate a b ox oy)]
  rw [hinv]
  rfl

theorem StrokesState.bounds_list_resize (s : StrokesState) (N B : AABB)
    (hB : s.selection_bounds = some B)
    (hnd : s.selection_components.keys.Nodup) :
    (s.resize_selection N).bounds_list s.keys_selection
      = (s.bounds_list s.keys_selection).map (resize_aabb B N) := by
  unfold StrokesState.bounds_list
  rw [filterMap_map_option]
  refine List.filterMap_congr (fun k hk => ?_)
  have hsel : s.selected k = some true :=
    s.selected_of_mem_keys_selection k hnd hk
  rw [s.resize_selection_strokes N B hB]
  rw [Table.get_map_ite s.strokes (fun n => (s.selected n).getD false)
    (fun v => v.resize (StrokesState.calc_new_stroke_bounds v B N)) k]
  rcases hg : s.strokes.get k with _ | st
  · rfl
  · simp [hsel, StrokeStyle.bounds_resize, calc_eq_resize_aabb]

theorem StrokesState.resize_selection_inv (s : StrokesState) (N B : AABB)
    (hB : s.selection_bounds = some B)
    (hnd : s.selection_components.keys.Nodup) (hinv : SelBoundsInv s)
    (hBx : 0 < B.extentsX) (hBy : 0 < B.extentsY)
    (hNx : 0 ≤ N.extentsX) (hNy : 0 ≤ N.extentsY) :
    SelBoundsInv (s.resize_selection N) := by
  have hsx : 0 ≤ N.extentsX / B.extentsX := div_nonneg hNx (le_of_lt hBx)
  have hsy : 0 ≤ N.extentsY / B.extentsY := div_nonneg hNy (le_of_lt hBy)
  show (s.resize_selection N).selection_bounds = _
  rw [s.resize_selection_bounds_some N B hB]
  have hks : (s.resize_selection N).keys_selection = s.keys_selection :=
    StrokesState.keys_selection_congr s _
      (s.resize_selection_selection_components N B hB)
  unfold StrokesState.gen_bounds
  rw [hks, StrokesState.bounds_list_resize s N B hB hnd,
    merge_fold_map _ (fun a b => resize_aabb_merged B N a b hsx hsy)]
  have hmf : merge_fold (s.bounds_list s.keys_selection) = some B := by
    have := hinv
    unfold SelBoundsInv StrokesState.gen_bounds at this
    rw [← this, hB]
  rw [hmf]
  have hms : Option.map (resize_aabb B N) (some B) = some (resize_aabb B N B) := rfl
  rw [hms, resize_aabb_fixed B N (ne_of_gt hBx) (ne_of_gt hBy)]

theorem StrokesState.set_selected_inv (s : StrokesState) (k : Nat) (b : Bool)
    (hinv : SelBoundsInv s) : SelBoundsInv (s.set_selected k b) := by
  rcases hc : s.selection_components.get k with _ | c
  · unfold StrokesState.set_selected
    rw [hc]
    exact hinv
  · unfold StrokesState.set_selected
    rw [hc]
    dsimp only
    exact StrokesState.update_selection_bounds_spec _

theorem StrokesState.deselect_all_inv (s : StrokesState) :
    SelBoundsInv s.deselect_all_strokes := by
  have hall : ∀ p ∈ s.deselect_all_strokes.selection_components,
      p.2.selected = false := by
    intro p hp
    have hds : s.deselect_all_strokes.selection_components
        = ((Table.keys s.selection_components).foldl
            StrokesState.deselect_step s).selection_components := rfl
    rw [hds] at hp
    refine StrokesState.deselect_fold_all_false _ s ?_ p hp
    intro q hq
    exact Or.inl (List.mem_map_of_mem (·.1) hq)
  have hks : s.deselect_all_strokes.keys_selection = [] := by
    unfold StrokesState.keys_selection
    rw [List.filterMap_eq_nil_iff]
    intro p hp
    rw [hall p hp]
    rfl
  show s.deselect_all_strokes.selection_bounds = _
  rw [hks]
  rfl

theorem StrokesState.duplicate_selection_inv (s : StrokesState) :
    SelBoundsInv s.duplicate_selection := by
  unfold StrokesState.duplicate_selection
  dsimp only
  exact StrokesState.update_selection_bounds_spec _

theorem StrokesState.regenerate_inv (s : StrokesState) (hinv : SelBoundsInv s) :
    SelBoundsInv s.regenerate_rendering_for_selection_threaded := by
  have hsel := s.regenerate_selection_components
  have hstrokes : s.regenerate_rendering_for_selection_threaded.strokes = s.strokes := by
    unfold StrokesState.regenerate_rendering_for_selection_threaded
    rw [foldl_render_only_strokes _ StrokesState.regenerate_step_frame]
  have hbounds : s.regenerate_rendering_for_selection_threaded.selection_bounds
      = s.selection_bounds := by
    unfold StrokesState.regenerate_rendering_for_selection_threaded
    rw [foldl_render_only_selection_bounds _ StrokesState.regenerate_step_frame]
  show s.regenerate_rendering_for_selection_threaded.selection_bounds = _
  rw [hbounds, StrokesState.keys_selection_congr s _ hsel,
    StrokesState.gen_bounds_congr s _ _ hstrokes]
  exact hinv

theorem StrokesState.selector_true_inv (s : StrokesState) (sel : Selector)
    (vp : Option AABB) (h : (s.update_selection_for_selector sel vp).2 = true) :
    SelBoundsInv (s.update_selection_for_selector sel vp).1 := by
  rcases hbb : sel.bounds with _ | sb
  · have hres : s.update_selection_for_selector sel vp = (s, false) := by
      unfold StrokesState.update_selection_for_selector
      rw [hbb]
    rw [hres] at h
    cases h
  · rw [update_selector_eq_some s sel vp sb hbb] at h ⊢
    by_cases hlen : (sel_scan sb vp s.strokes s).selection_len ≠ s.selection_len
    · rw [if_pos hlen]
      dsimp only
      exact StrokesState.regenerate_inv _ (StrokesState.update_selection_bounds_spec _)
    · rw [if_neg hlen] at h
      cases h

end OpInvariants

section ClaimC1

/-- C1 counterexample: in `exStateA` the invariant holds, the selector swaps
which stroke is selected without changing the count, no recompute happens, and
the invariant is broken afterwards. -/
theorem selection_bounds_invariant_counterexample :
    SelBoundsInv exStateA ∧
    ¬ SelBoundsInv (exStateA.update_selection_for_selector exSelectorB none).1 := by
  decide

/-- C1 amended: all selection operations re-establish the bounds invariant,
except that `update_selection_for_selector` only guarantees it when it returns
true (the selected count changed) and `resize_selection` is guaranteed for
non-degenerate group bounds (positive extents) and a non-inverted target. -/
theorem selection_bounds_invariant_amended (s : StrokesState)
    (hwf : StateWF s) (hinv : SelBoundsInv s) :
    (∀ k b, SelBoundsInv (s.set_selected k b)) ∧
    SelBoundsInv s.deselect_all_strokes ∧
    (∀ sel vp, sel.bounds = none →
      s.update_selection_for_selector sel vp = (s, false)) ∧
    (∀ sel vp, (s.update_selection_for_selector sel vp).2 = true →
      SelBoundsInv (s.update_selection_for_selector sel vp).1) ∧
    (∀ N B, s.selection_bounds = some B →
      0 < B.extentsX → 0 < B.extentsY → 0 ≤ N.extentsX → 0 ≤ N.extentsY →
      SelBoundsInv (s.resize_selection N)) ∧
    (∀ ox oy, SelBoundsInv (s.translate_selection ox oy)) ∧
    SelBoundsInv s.duplicate_selection := by
  refine ⟨fun k b => s.set_selected_inv k b hinv,
    s.deselect_all_inv, ?_,
    fun sel vp h => s.selector_true_inv sel vp h,
    fun N B hB hBx hBy hNx hNy =>
      s.resize_selection_inv N B hB hwf.2.1 hinv hBx hBy hNx hNy,
    fun ox oy => s.translate_selection_inv ox oy hwf.2.1 hinv,
    s.duplicate_selection_inv⟩
  intro sel vp hnone
  unfold StrokesState.update_selection_for_selector
  rw [hnone]

theorem selection_bounds_invariant_amended_witness :
    SelBoundsInv (exStateA.set_selected 1 true) ∧
    SelBoundsInv exStateA.deselect_all_strokes ∧
    exStateA.update_selection_for_selector ⟨none⟩ none = (exStateA, false) ∧
    SelBoundsInv (exStateA.resize_selection ⟨2, 2, 6, 4⟩) ∧
    SelBoundsInv (exStateA.translate_selection 3 4) ∧
    SelBoundsInv exStateA.duplicate_selection := by
  have h := selection_bounds_invariant_amended exStateA (by decide) (by decide)
  exact ⟨h.1 1 true, h.2.1, h.2.2.1 ⟨none⟩ none rfl,
    h.2.2.2.2.1 ⟨2, 2, 6, 4⟩ ⟨0, 0, 1, 1⟩ (by decide) (by norm_num [AABB.extentsX])
      (by norm_num [AABB.extentsY]) (by norm_num [AABB.extentsX])
      (by norm_num [AABB.extentsY]),
    h.2.2.2.2.2.1 3 4, h.2.2.2.2.2.2⟩

end ClaimC1

section DuplicateHelpers

theorem Table.keys_append {α : Type} (l1 l2 : Table α) :
    Table.keys (l1 ++ l2) = Table.keys l1 ++ Table.keys l2 := by
  unfold Table.keys
  rw [List.map_append]

theorem Table.set_append {α : Type} (l1 l2 : Table α) (k : Nat) (v : α) :
    Table.set (l1 ++ l2) k v = Table.set l1 k v ++ Table.set l2 k v := by
  unfold Table.set
  rw [List.map_append]

theorem Table.set_of_not_mem {α : Type} (l : Table α) (k : Nat) (v : α)
    (h : k ∉ Table.keys l) : Table.set l k v = l := by
  induction l with
  | nil => rfl
  | cons p l ih =>
      have hk : Table.keys (p :: l) = p.1 :: Table.keys l := rfl
      rw [hk] at h
      have hp : p.1 ≠ k := fun hpk => h (hpk ▸ List.mem_cons_self _ _)
      have hl : k ∉ Table.keys l := fun hkl => h (List.mem_cons_of_mem _ hkl)
      show (if (p.1 == k) = true then (p.1, v) else p) :: Table.set l k v = p :: l
      rw [if_neg (by simp [hp]), ih hl]

theorem Table.get_mem {α : Type} (l : Table α) (k : Nat) (c : α)
    (h : Table.get l k = some c) : (k, c) ∈ l := by
  unfold Table.get at h
  rcases hf : List.find? (fun p => p.1 == k) l with _ | p
  · rw [hf] at h
    cases h
  · rw [hf] at h
    have hp2 : p.2 = c := by
      simpa using h
    have hp1 : p.1 = k := by
      have := List.find?_some hf
      simpa using this
    have hpm := List.mem_of_find?_eq_some hf
    have : p = (k, c) := by
      rw [← hp1, ← hp2]
    rw [← this]
    exact hpm

theorem Table.get_append_left {α : Type} (l1 l2 : Table α) (k : Nat)
    (h : (Table.get l1 k).isSome) :
    Table.get (l1 ++ l2) k = Table.get l1 k := by
  rw [Table.get_append]
  rcases hg : Table.get l1 k with _ | c
  · rw [hg] at h
    cases h
  · rfl

theorem Table.get_append_right {α : Type} (l1 l2 : Table α) (k : Nat)
    (h : k ∉ Table.keys l1) :
    Table.get (l1 ++ l2) k = Table.get l2 k := by
  rw [Table.get_append, Table.get_eq_none_of_not_mem_keys l1 k h]
  rfl

/-- The clone entries produced by the duplication scan: one fresh key per
snapshotted stroke, in order, each stroke shifted once by the duplication
offset. -/
def clones_from (l : List StrokeStyle) (base : Nat) (ox oy : ℚ) :
    Table StrokeStyle :=
  match l with
  | [] => []
  | st :: rest => (base, st.translate ox oy) :: clones_from rest (base + 1) ox oy

/-- The clone entries after the final group translate: each clone shifted by
the duplication offset twice. -/
def clones2_from (l : List StrokeStyle) (base : Nat) (ox oy : ℚ) :
    Table StrokeStyle :=
  match l with
  | [] => []
  | st :: rest =>
      (base, (st.translate ox oy).translate ox oy) :: clones2_from rest (base + 1) ox oy

/-- The selection component entries created for the clones: `n` fresh keys
starting at `base`, all selected. -/
def sel_entries (base n : Nat) : Table SelectionComponent :=
  match n with
  | 0 => []
  | m + 1 => (base, ⟨true⟩) :: sel_entries (base + 1) m

theorem clones_from_keys_bound (l : List StrokeStyle) :
    ∀ (base : Nat) (ox oy : ℚ) (q : Nat),
      q ∈ Table.keys (clones_from l base ox oy) → base ≤ q ∧ q < base + l.length := by
  induction l with
  | nil => intro base ox oy q hq; exact absurd hq (List.not_mem_nil q)
  | cons st rest ih =>
      intro base ox oy q hq
      have hk : Table.keys (clones_from (st :: rest) base ox oy)
          = base :: Table.keys (clones_from rest (base + 1) ox oy) := rfl
      rw [hk] at hq
      rcases List.mem_cons.mp hq with h1 | h2
      · subst h1
        simp
      · have := ih (base + 1) ox oy q h2
        constructor
        · omega
        · have hlen : (st :: rest).length = rest.length + 1 := rfl
          omega

theorem sel_entries_keys_bound (n : Nat) :
    ∀ (base q : Nat), q ∈ Table.keys (sel_entries base n) →
      base ≤ q ∧ q < base + n := by
  induction n with
  | zero => intro base q hq; exact absurd hq (List.not_mem_nil q)
  | succ m ih =>
      intro base q hq
      have hk : Table.keys (sel_entries base (m + 1))
          = base :: Table.keys (sel_entries (base + 1) m) := rfl
      rw [hk] at hq
      rcases List.mem_cons.mp hq with h1 | h2
      · subst h1
        simp
      · have := ih (base + 1) q h2
        omega

theorem sel_entries_get (n : Nat) :
    ∀ (base i : Nat), i < n →
      Table.get (sel_entries base n) (base + i) = some ⟨true⟩ := by
  induction n with
  | zero => intro base i hi; omega
  | succ m ih =>
      intro base i hi
      have hse : sel_entries base (m + 1)
          = (base, ⟨true⟩) :: sel_entries (base + 1) m := rfl
      rw [hse, Table.get_cons]
      rcases Nat.eq_zero_or_pos i with hz | hp
      · subst hz
        rw [if_pos (by omega)]
      · rw [if_neg (by omega)]
        have : base + i = (base + 1) + (i - 1) := by omega
        rw [this]
        exact ih (base + 1) (i - 1) (by omega)

theorem clones2_from_get (l : List StrokeStyle) :
    ∀ (base : Nat) (ox oy : ℚ) (i : Nat) (orig : StrokeStyle),
      l[i]? = some orig →
      Table.get (clones2_from l base ox oy) (base + i)
        = some ((orig.translate ox oy).translate ox oy) := by
  induction l with
  | nil => intro base ox oy i orig h; cases h
  | cons st rest ih =>
      intro base ox oy i orig h
      have hcl : clones2_from (st :: rest) base ox oy
          = (base, (st.translate ox oy).translate ox oy)
            :: clones2_from rest (base + 1) ox oy := rfl
      rw [hcl, Table.get_cons]
      rcases Nat.eq_zero_or_pos i with hz | hp
      · subst hz
        rw [if_pos (by omega)]
        have : st = orig := by
          simpa using h
        rw [this]
      · rw [if_neg (by omega)]
        have heq : base + i = (base + 1) + (i - 1) := by omega
        rw [heq]
        refine ih (base + 1) ox oy (i - 1) orig ?_
        have hi' : (st :: rest)[i]? = rest[i - 1]? := by
          rcases i with _ | j
          · omega
          · simp
        rw [← hi']
        exact h

theorem clones_from_map_translate (l : List StrokeStyle) :
    ∀ (base : Nat) (ox oy : ℚ) (c : Nat → Bool),
      (∀ q, base ≤ q → q < base + l.length → c q = true) →
      (clones_from l base ox oy).map
          (fun p => if c p.1 then (p.1, p.2.translate ox oy) else p)
        = clones2_from l base ox oy := by
  induction l with
  | nil => intro base ox oy c hc; rfl
  | cons st rest ih =>
      intro base ox oy c hc
      have hcl : clones_from (st :: rest) base ox oy
          = (base, st.translate ox oy) :: clones_from rest (base + 1) ox oy := rfl
      have hcl2 : clones2_from (st :: rest) base ox oy
          = (base, (st.translate ox oy).translate ox oy)
            :: clones2_from rest (base + 1) ox oy := rfl
      rw [hcl, hcl2, List.map_cons]
      have hcb : c base = true := hc base (Nat.le_refl _) (by simp)
      rw [if_pos hcb]
      congr 1
      refine ih (base + 1) ox oy c (fun q h1 h2 => ?_)
      refine hc q (by omega) ?_
      have : (st :: rest).length = rest.length + 1 := rfl
      omega

end DuplicateHelpers

section DeselectFieldLemmas

theorem StrokesState.deselect_all_strokes_strokes (s : StrokesState) :
    s.deselect_all_strokes.strokes = s.strokes := by
  unfold StrokesState.deselect_all_strokes
  dsimp only
  rw [foldl_selchrono_only_strokes _ StrokesState.deselect_step_frame]

theorem StrokesState.deselect_all_strokes_render (s : StrokesState) :
    s.deselect_all_strokes.render_components = s.render_components := by
  unfold StrokesState.deselect_all_strokes
  dsimp only
  rw [foldl_selchrono_only_render_components _ StrokesState.deselect_step_frame]

theorem StrokesState.deselect_all_strokes_trash (s : StrokesState) :
    s.deselect_all_strokes.trash_components = s.trash_components := by
  unfold StrokesState.deselect_all_strokes
  dsimp only
  rw [foldl_selchrono_only_trash_components _ StrokesState.deselect_step_frame]

theorem StrokesState.deselect_all_strokes_next_key (s : StrokesState) :
    s.deselect_all_strokes.next_key = s.next_key := by
  unfold StrokesState.deselect_all_strokes
  dsimp only
  rw [foldl_selchrono_only_next_key _ StrokesState.deselect_step_frame]

theorem StrokesState.deselect_fold_sel_keys (ks : List Nat) :
    ∀ st : StrokesState,
      ((ks.foldl StrokesState.deselect_step st).selection_components).keys
        = st.selection_components.keys := by
  induction ks with
  | nil => exact fun st => rfl
  | cons k ks ih =>
      intro st
      rw [List.foldl_cons, ih, StrokesState.deselect_step_selection_components,
        Table.keys_set]

theorem StrokesState.deselect_all_strokes_sel_keys (s : StrokesState) :
    s.deselect_all_strokes.selection_components.keys
      = s.selection_components.keys := by
  have hds : s.deselect_all_strokes.selection_components
      = ((Table.keys s.selection_components).foldl
          StrokesState.deselect_step s).selection_components := rfl
  rw [hds, StrokesState.deselect_fold_sel_keys]

theorem StrokesState.deselect_all_strokes_chrono_keys (s : StrokesState) :
    s.deselect_all_strokes.chrono_components.keys
      = s.chrono_components.keys := by
  have hds : s.deselect_all_strokes.chrono_components
      = ((Table.keys s.selection_components).foldl
          StrokesState.deselect_step s).chrono_components := rfl
  rw [hds, StrokesState.deselect_fold_chrono_keys]

theorem StrokesState.deselect_all_strokes_all_false (s : StrokesState) :
    ∀ p ∈ s.deselect_all_strokes.selection_components, p.2.selected = false := by
  intro p hp
  have hds : s.deselect_all_strokes.selection_components
      = ((Table.keys s.selection_components).foldl
          StrokesState.deselect_step s).selection_components := rfl
  rw [hds] at hp
  refine StrokesState.deselect_fold_all_false _ s ?_ p hp
  intro q hq
  exact Or.inl (List.mem_map_of_mem (·.1) hq)

theorem selected_getD_false_of_all_false (l : Table SelectionComponent) (k : Nat)
    (h : ∀ p ∈ l, p.2.selected = false) :
    ((Table.get l k).map (·.selected)).getD false = false := by
  rcases hg : Table.get l k with _ | c
  · rfl
  · have := h (k, c) (Table.get_mem l k c hg)
    simpa using this

end DeselectFieldLemmas

section SetSelectedFieldLemmas

theorem StrokesState.set_selected_eq_of_some (s : StrokesState) (k : Nat) (b : Bool)
    (c0 : SelectionComponent) (hc0 : s.selection_components.get k = some c0) :
    s.set_selected k b
      = (if b then (sel_set s k b).stamp_chrono k
          else sel_set s k b).update_selection_bounds := by
  unfold StrokesState.set_selected
  rw [hc0]
  rfl

theorem StrokesState.set_selected_strokes (s : StrokesState) (k : Nat) (b : Bool) :
    (s.set_selected k b).strokes = s.strokes := by
  rcases hc : s.selection_components.get k with _ | c0
  · unfold StrokesState.set_selected
    rw [hc]
  · rw [StrokesState.set_selected_eq_of_some s k b c0 hc,
      StrokesState.update_selection_bounds_strokes]
    rcases hb : b with _ | _
    · rfl
    · rw [if_pos rfl, StrokesState.stamp_chrono_strokes]
      rfl

theorem StrokesState.set_selected_next_key (s : StrokesState) (k : Nat) (b : Bool) :
    (s.set_selected k b).next_key = s.next_key := by
  rcases hc : s.selection_components.get k with _ | c0
  · unfold StrokesState.set_selected
    rw [hc]
  · rw [StrokesState.set_selected_eq_of_some s k b c0 hc]
    have hub : ∀ t : StrokesState, t.update_selection_bounds.next_key = t.next_key :=
      fun t => rfl
    rw [hub]
    rcases hb : b with _ | _
    · rfl
    · rw [if_pos rfl, StrokesState.stamp_chrono_next_key]
      rfl

theorem StrokesState.set_selected_render (s : StrokesState) (k : Nat) (b : Bool) :
    (s.set_selected k b).render_components = s.render_components := by
  rcases hc : s.selection_components.get k with _ | c0
  · unfold StrokesState.set_selected
    rw [hc]
  · rw [StrokesState.set_selected_eq_of_some s k b c0 hc]
    have hub : ∀ t : StrokesState,
        t.update_selection_bounds.render_components = t.render_components :=
      fun t => rfl
    rw [hub]
    rcases hb : b with _ | _
    · rfl
    · rw [if_pos rfl, StrokesState.stamp_chrono_render_components]
      rfl

theorem StrokesState.set_selected_trash (s : StrokesState) (k : Nat) (b : Bool) :
    (s.set_selected k b).trash_components = s.trash_components := by
  rcases hc : s.selection_components.get k with _ | c0
  · unfold StrokesState.set_selected
    rw [hc]
  · rw [StrokesState.set_selected_eq_of_some s k b c0 hc]
    have hub : ∀ t : StrokesState,
        t.update_selection_bounds.trash_components = t.trash_components :=
      fun t => rfl
    rw [hub]
    rcases hb : b with _ | _
    · rfl
    · rw [if_pos rfl, StrokesState.stamp_chrono_trash_components]
      rfl

theorem StrokesState.set_selected_sel_comps_of_some (s : StrokesState) (k : Nat)
    (b : Bool) (c0 : SelectionComponent)
    (hc0 : s.selection_components.get k = some c0) :
    (s.set_selected k b).selection_components
      = s.selection_components.set k ⟨b⟩ := by
  rw [StrokesState.set_selected_eq_of_some s k b c0 hc0,
    StrokesState.update_selection_bounds_selection_components]
  rcases hb : b with _ | _
  · rfl
  · rw [if_pos rfl, StrokesState.stamp_chrono_selection_components]
    rfl

theorem StrokesState.set_selected_chrono_keys (s : StrokesState) (k : Nat)
    (b : Bool) :
    (s.set_selected k b).chrono_components.keys = s.chrono_components.keys := by
  rcases hc : s.selection_components.get k with _ | c0
  · unfold StrokesState.set_selected
    rw [hc]
  · rw [StrokesState.set_selected_eq_of_some s k b c0 hc]
    have hub : ∀ t : StrokesState,
        t.update_selection_bounds.chrono_components = t.chrono_components :=
      fun t => rfl
    rw [hub]
    rcases hb : b with _ | _
    · rfl
    · rw [if_pos rfl, StrokesState.stamp_chrono_chrono_keys]
      rfl

end SetSelectedFieldLemmas

section DuplicateFold

theorem duplicate_step_spec (ox oy : ℚ) (st : StrokesState) (k : Nat)
    (stroke : StrokeStyle)
    (hk : st.strokes.get k = some stroke)
    (hfa : ∀ q ∈ Table.keys st.strokes, q < st.next_key)
    (hfs : ∀ q ∈ Table.keys st.selection_components, q < st.next_key) :
    (StrokesState.duplicate_step ox oy st k).strokes
        = st.strokes ++ [(st.next_key, stroke.translate ox oy)] ∧
    (StrokesState.duplicate_step ox oy st k).selection_components
        = st.selection_components ++ [(st.next_key, ⟨true⟩)] ∧
    (StrokesState.duplicate_step ox oy st k).next_key = st.next_key + 1 := by
  have hKs : st.next_key ∉ Table.keys st.strokes := by
    intro hmem
    exact absurd (hfa _ hmem) (lt_irrefl _)
  have hKsel : st.next_key ∉ Table.keys st.selection_components := by
    intro hmem
    exact absurd (hfs _ hmem) (lt_irrefl _)
  have hstep : StrokesState.duplicate_step ox oy st k
      = (let st2 := ({ st with
            strokes := st.strokes ++ [(st.next_key, stroke)],
            selection_components := st.selection_components ++ [(st.next_key, ⟨false⟩)],
            chrono_components := st.chrono_components ++ [(st.next_key, ⟨0⟩)],
            render_components := st.render_components ++
              [(st.next_key, ⟨⟨stroke.bounds⟩, ⟨stroke.bounds, st.zoom⟩, true, true⟩)],
            trash_components := st.trash_components ++ [(st.next_key, ⟨false⟩)],
            next_key := st.next_key + 1 } : StrokesState).set_selected st.next_key true
        { st2 with strokes := st2.strokes.map (fun p =>
            if p.1 == st.next_key then (p.1, p.2.translate ox oy) else p) }) := by
    unfold StrokesState.duplicate_step StrokesState.insert_stroke
    rw [hk]
  rw [hstep]
  dsimp only
  set ST1 : StrokesState := { st with
      strokes := st.strokes ++ [(st.next_key, stroke)],
      selection_components := st.selection_components ++ [(st.next_key, ⟨false⟩)],
      chrono_components := st.chrono_components ++ [(st.next_key, ⟨0⟩)],
      render_components := st.render_components ++
        [(st.next_key, ⟨⟨stroke.bounds⟩, ⟨stroke.bounds, st.zoom⟩, true, true⟩)],
      trash_components := st.trash_components ++ [(st.next_key, ⟨false⟩)],
      next_key := st.next_key + 1 } with hST1
  have hget : ST1.selection_components.get st.next_key = some ⟨false⟩ := by
    rw [hST1]
    show Table.get (st.selection_components ++ [(st.next_key, ⟨false⟩)]) st.next_key
      = some ⟨false⟩
    rw [Table.get_append_right _ _ _ hKsel, Table.get_cons]
    rw [if_pos rfl]
  have hstrokes2 : (ST1.set_selected st.next_key true).strokes
      = st.strokes ++ [(st.next_key, stroke)] := by
    rw [StrokesState.set_selected_strokes]
  have hsel2 : (ST1.set_selected st.next_key true).selection_components
      = st.selection_components ++ [(st.next_key, ⟨true⟩)] := by
    rw [StrokesState.set_selected_sel_comps_of_some ST1 st.next_key true ⟨false⟩ hget]
    show Table.set (st.selection_components ++ [(st.next_key, ⟨false⟩)])
        st.next_key ⟨true⟩ = _
    rw [Table.set_append, Table.set_of_not_mem _ _ _ hKsel]
    congr 1
    simp [Table.set]
  have hnk2 : (ST1.set_selected st.next_key true).next_key = st.next_key + 1 := by
    rw [StrokesState.set_selected_next_key]
  refine ⟨?_, hsel2, hnk2⟩
  rw [hstrokes2, List.map_append]
  have hold : st.strokes.map (fun p =>
      if p.1 == st.next_key then (p.1, p.2.translate ox oy) else p) = st.strokes := by
    have := List.map_congr_left (l := st.strokes)
      (f := fun p => if p.1 == st.next_key then (p.1, p.2.translate ox oy) else p)
      (g := id) ?_
    · rw [this, List.map_id]
    · intro p hp
      have hne : p.1 ≠ st.next_key := by
        intro heq
        exact absurd (hfa p.1 (List.mem_map_of_mem (·.1) hp)) (by omega)
      simp [hne]
  rw [hold]
  congr 1
  simp

theorem duplicate_fold_spec (ox oy : ℚ) (sel : List Nat) :
    ∀ st : StrokesState,
      (∀ q ∈ Table.keys st.strokes, q < st.next_key) →
      (∀ q ∈ Table.keys st.selection_components, q < st.next_key) →
      (∀ k ∈ sel, k ∈ Table.keys st.strokes) →
      (sel.foldl (StrokesState.duplicate_step ox oy) st).strokes
          = st.strokes
            ++ clones_from (sel.filterMap (st.strokes.get ·)) st.next_key ox oy ∧
      (sel.foldl (StrokesState.duplicate_step ox oy) st).selection_components
          = st.selection_components ++ sel_entries st.next_key sel.length ∧
      (sel.foldl (StrokesState.duplicate_step ox oy) st).next_key
          = st.next_key + sel.length := by
  induction sel with
  | nil =>
      intro st _ _ _
      refine ⟨?_, ?_, rfl⟩
      · show st.strokes = st.strokes ++ clones_from [] st.next_key ox oy
        rw [show clones_from [] st.next_key ox oy = [] from rfl, List.append_nil]
      · show st.selection_components = st.selection_components ++ sel_entries st.next_key 0
        rw [show sel_entries st.next_key 0 = [] from rfl, List.append_nil]
  | cons k sel ih =>
      intro st hfa hfs hmem
      have hkmem : k ∈ Table.keys st.strokes := hmem k (List.mem_cons_self _ _)
      obtain ⟨stroke, hk⟩ : ∃ stroke, st.strokes.get k = some stroke := by
        have := (Table.isSome_get_iff_mem_keys st.strokes k).mpr hkmem
        rcases hg : st.strokes.get k with _ | v
        · rw [hg] at this
          cases this
        · exact ⟨v, rfl⟩
      obtain ⟨hs2, hc2, hn2⟩ := duplicate_step_spec ox oy st k stroke hk hfa hfs
      set st2 := StrokesState.duplicate_step ox oy st k with hst2
      have hfa2 : ∀ q ∈ Table.keys st2.strokes, q < st2.next_key := by
        intro q hq
        rw [hs2, Table.keys_append] at hq
        rw [hn2]
        rcases List.mem_append.mp hq with h1 | h2
        · have := hfa q h1
          omega
        · have : q = st.next_key := by
            have hkk : Table.keys [(st.next_key, stroke.translate ox oy)]
                = [st.next_key] := rfl
            rw [hkk] at h2
            simpa using h2
          omega
      have hfs2 : ∀ q ∈ Table.keys st2.selection_components, q < st2.next_key := by
        intro q hq
        rw [hc2, Table.keys_append] at hq
        rw [hn2]
        rcases List.mem_append.mp hq with h1 | h2
        · have := hfs q h1
          omega
        · have : q = st.next_key := by
            have hkk : Table.keys [((st.next_key : Nat),
                (⟨true⟩ : SelectionComponent))] = [st.next_key] := rfl
            rw [hkk] at h2
            simpa using h2
          omega
      have hmem2 : ∀ k2 ∈ sel, k2 ∈ Table.keys st2.strokes := by
        intro k2 hk2
        rw [hs2, Table.keys_append]
        exact List.mem_append_left _ (hmem k2 (List.mem_cons_of_mem _ hk2))
      obtain ⟨ihs, ihc, ihn⟩ := ih st2 hfa2 hfs2 hmem2
      have hfm : sel.filterMap (st2.strokes.get ·)
          = sel.filterMap (st.strokes.get ·) := by
        refine List.filterMap_congr (fun k2 hk2 => ?_)
        rw [hs2]
        exact Table.get_append_left _ _ _
          ((Table.isSome_get_iff_mem_keys st.strokes k2).mpr
            (hmem k2 (List.mem_cons_of_mem _ hk2)))
      have hfoldcons : (k :: sel).foldl (StrokesState.duplicate_step ox oy) st
          = sel.foldl (StrokesState.duplicate_step ox oy) st2 := rfl
      have hfmc : (k :: sel).filterMap (st.strokes.get ·)
          = stroke :: sel.filterMap (st.strokes.get ·) := by
        simp [List.filterMap_cons, hk]
      refine ⟨?_, ?_, ?_⟩
      · rw [hfoldcons, ihs, hfm, hs2, hn2, List.append_assoc, hfmc]
        rfl
      · rw [hfoldcons, ihc, hc2, hn2, List.append_assoc]
        rfl
      · rw [hfoldcons, ihn, hn2]
        show st.next_key + 1 + sel.length = st.next_key + (k :: sel).length
        have : (k :: sel).length = sel.length + 1 := rfl
        omega

end DuplicateFold

section ClaimC8

theorem filterMap_length_eq_of_all_some {α β : Type} (f : α → Option β)
    (l : List α) (h : ∀ a ∈ l, (f a).isSome) :
    (l.filterMap f).length = l.length := by
  induction l with
  | nil => rfl
  | cons a l ih =>
      have ha := h a (List.mem_cons_self _ _)
      rcases hf : f a with _ | b
      · rw [hf] at ha
        cases ha
      · rw [List.filterMap_cons, hf]
        have := ih (fun a2 ha2 => h a2 (List.mem_cons_of_mem _ ha2))
        simp [this]

theorem StrokesState.mem_sel_keys_of_mem_keys_selection (s : StrokesState)
    (k : Nat) (h : k ∈ s.keys_selection) :
    k ∈ Table.keys s.selection_components := by
  unfold StrokesState.keys_selection at h
  rcases List.mem_filterMap.mp h with ⟨p, hp, hpk⟩
  have hp1 : p.1 = k := by
    by_cases hsel : p.2.selected <;> simp [hsel] at hpk
    exact hpk
  rw [← hp1]
  exact List.mem_map_of_mem (·.1) hp

/-- C8: `duplicate_selection()` leaves every original stroke geometrically
unchanged, deselects every previously selected stroke, inserts exactly one
clone per previously selected stroke at consecutive fresh keys, selects every
clone, displaces each clone by twice the duplication offset (2·20 on each
axis), and recomputes `selection_bounds` over the current (clone) selection. -/
theorem duplicate_selection_spec (s : StrokesState)
    (hwf : StateWF s)
    (hka : ∀ k ∈ s.keys_selection, k ∈ Table.keys s.strokes) :
    s.duplicate_selection.strokes
        = s.strokes
          ++ clones2_from (s.keys_selection.filterMap (s.strokes.get ·)) s.next_key
            SELECTION_DUPLICATION_OFFSET_X SELECTION_DUPLICATION_OFFSET_Y ∧
    (∀ k ∈ s.keys_selection, s.duplicate_selection.selected k = some false) ∧
    (∀ i orig, (s.keys_selection.filterMap (s.strokes.get ·))[i]? = some orig →
      s.duplicate_selection.strokes.get (s.next_key + i)
          = some ((orig.translate SELECTION_DUPLICATION_OFFSET_X
              SELECTION_DUPLICATION_OFFSET_Y).translate SELECTION_DUPLICATION_OFFSET_X
              SELECTION_DUPLICATION_OFFSET_Y) ∧
      s.duplicate_selection.selected (s.next_key + i) = some true ∧
      ∃ st2, s.duplicate_selection.strokes.get (s.next_key + i) = some st2 ∧
        st2.bounds = orig.bounds.translate 40 40) ∧
    SelBoundsInv s.duplicate_selection := by
  obtain ⟨hndA, hndS, hndC, hndR, hndT, hfA, hfS, hfC, hfR, hfT⟩ := hwf
  have hd : s.duplicate_selection
      = ((s.keys_selection.foldl
          (StrokesState.duplicate_step SELECTION_DUPLICATION_OFFSET_X
            SELECTION_DUPLICATION_OFFSET_Y) s.deselect_all_strokes).translate_selection
          SELECTION_DUPLICATION_OFFSET_X
          SELECTION_DUPLICATION_OFFSET_Y).update_selection_bounds := rfl
  have hs1s : s.deselect_all_strokes.strokes = s.strokes :=
    s.deselect_all_strokes_strokes
  have hs1n : s.deselect_all_strokes.next_key = s.next_key :=
    s.deselect_all_strokes_next_key
  have hs1k : s.deselect_all_strokes.selection_components.keys
      = s.selection_components.keys := s.deselect_all_strokes_sel_keys
  have hs1false := s.deselect_all_strokes_all_false
  have hfa1 : ∀ q ∈ Table.keys s.deselect_all_strokes.strokes,
      q < s.deselect_all_strokes.next_key := by
    rw [hs1s, hs1n]
    exact hfA
  have hfs1 : ∀ q ∈ Table.keys s.deselect_all_strokes.selection_components,
      q < s.deselect_all_strokes.next_key := by
    rw [hs1k, hs1n]
    exact hfS
  have hmem1 : ∀ k ∈ s.keys_selection, k ∈ Table.keys s.deselect_all_strokes.strokes := by
    rw [hs1s]
    exact hka
  obtain ⟨hds, hdc, hdn⟩ := duplicate_fold_spec SELECTION_DUPLICATION_OFFSET_X
    SELECTION_DUPLICATION_OFFSET_Y s.keys_selection s.deselect_all_strokes
    hfa1 hfs1 hmem1
  rw [hs1s, hs1n] at hds
  rw [hs1n] at hdc
  have horigs_len : (s.keys_selection.filterMap (s.strokes.get ·)).length
      = s.keys_selection.length := by
    refine filterMap_length_eq_of_all_some _ _ (fun k hk => ?_)
    exact (Table.isSome_get_iff_mem_keys s.strokes k).mpr (hka k hk)
  have hselstate : (s.keys_selection.foldl
      (StrokesState.duplicate_step SELECTION_DUPLICATION_OFFSET_X
        SELECTION_DUPLICATION_OFFSET_Y)
      s.deselect_all_strokes).selected
      = fun q => ((s.deselect_all_strokes.selection_components
          ++ sel_entries s.next_key s.keys_selection.length).get q).map (·.selected) := by
    funext q
    unfold StrokesState.selected
    rw [hdc]
  have hcond_old : ∀ p ∈ s.strokes,
      (((s.keys_selection.foldl
        (StrokesState.duplicate_step SELECTION_DUPLICATION_OFFSET_X
          SELECTION_DUPLICATION_OFFSET_Y)
        s.deselect_all_strokes).selected p.1).getD false) = false := by
    intro p hp
    rw [hselstate]
    dsimp only
    by_cases hmem : p.1 ∈ Table.keys s.deselect_all_strokes.selection_components
    · rw [Table.get_append_left _ _ _
        ((Table.isSome_get_iff_mem_keys _ _).mpr hmem)]
      exact selected_getD_false_of_all_false _ _ hs1false
    · rw [Table.get_append_right _ _ _ hmem]
      have hlt : p.1 < s.next_key := hfA p.1 (List.mem_map_of_mem (·.1) hp)
      have hnone : Table.get (sel_entries s.next_key s.keys_selection.length) p.1
          = none := by
        refine Table.get_eq_none_of_not_mem_keys _ _ (fun hm => ?_)
        have := sel_entries_keys_bound s.keys_selection.length s.next_key p.1 hm
        omega
      rw [hnone]
      rfl
  have hcond_new : ∀ q, s.next_key ≤ q →
      q < s.next_key + (s.keys_selection.filterMap (s.strokes.get ·)).length →
      (((s.keys_selection.foldl
        (StrokesState.duplicate_step SELECTION_DUPLICATION_OFFSET_X
          SELECTION_DUPLICATION_OFFSET_Y)
        s.deselect_all_strokes).selected q).getD false) = true := by
    intro q hq1 hq2
    rw [hselstate]
    dsimp only
    have hnotold : q ∉ Table.keys s.deselect_all_strokes.selection_components := by
      rw [hs1k]
      intro hm
      have := hfS q hm
      omega
    rw [Table.get_append_right _ _ _ hnotold]
    have hqe : q = s.next_key + (q - s.next_key) := by omega
    rw [hqe, sel_entries_get s.keys_selection.length s.next_key (q - s.next_key)
      (by rw [horigs_len] at hq2; omega)]
    rfl
  have hstrokes3 :
      ((s.keys_selection.foldl
        (StrokesState.duplicate_step SELECTION_DUPLICATION_OFFSET_X
          SELECTION_DUPLICATION_OFFSET_Y)
        s.deselect_all_strokes).translate_selection SELECTION_DUPLICATION_OFFSET_X
        SELECTION_DUPLICATION_OFFSET_Y).strokes
      = s.strokes
        ++ clones2_from (s.keys_selection.filterMap (s.strokes.get ·)) s.next_key
          SELECTION_DUPLICATION_OFFSET_X SELECTION_DUPLICATION_OFFSET_Y := by
    rw [StrokesState.translate_selection_strokes, hds, List.map_append]
    have hold : s.strokes.map (fun p =>
        if ((s.keys_selection.foldl
          (StrokesState.duplicate_step SELECTION_DUPLICATION_OFFSET_X
            SELECTION_DUPLICATION_OFFSET_Y)
          s.deselect_all_strokes).selected p.1).getD false then
          (p.1, p.2.translate SELECTION_DUPLICATION_OFFSET_X
            SELECTION_DUPLICATION_OFFSET_Y)
        else p) = s.strokes := by
      have := List.map_congr_left (l := s.strokes)
        (f := fun p =>
          if ((s.keys_selection.foldl
            (StrokesState.duplicate_step SELECTION_DUPLICATION_OFFSET_X
              SELECTION_DUPLICATION_OFFSET_Y)
            s.deselect_all_strokes).selected p.1).getD false then
            (p.1, p.2.translate SELECTION_DUPLICATION_OFFSET_X
              SELECTION_DUPLICATION_OFFSET_Y)
          else p)
        (g := id) ?_
      · rw [this, List.map_id]
      · intro p hp
        simp only [id, hcond_old p hp]
        simp
    rw [hold]
    congr 1
    exact clones_from_map_translate _ s.next_key _ _ _
      (fun q h1 h2 => hcond_new q h1 h2)
  have hsel3 :
      ((s.keys_selection.foldl
        (StrokesState.duplicate_step SELECTION_DUPLICATION_OFFSET_X
          SELECTION_DUPLICATION_OFFSET_Y)
        s.deselect_all_strokes).translate_selection SELECTION_DUPLICATION_OFFSET_X
        SELECTION_DUPLICATION_OFFSET_Y).selection_components
      = s.deselect_all_strokes.selection_components
        ++ sel_entries s.next_key s.keys_selection.length := by
    rw [StrokesState.translate_selection_selection_components, hdc]
  have hdstrokes : s.duplicate_selection.strokes
      = s.strokes
        ++ clones2_from (s.keys_selection.filterMap (s.strokes.get ·)) s.next_key
          SELECTION_DUPLICATION_OFFSET_X SELECTION_DUPLICATION_OFFSET_Y := by
    rw [hd, StrokesState.update_selection_bounds_strokes, hstrokes3]
  have hdsel : s.duplicate_selection.selection_components
      = s.deselect_all_strokes.selection_components
        ++ sel_entries s.next_key s.keys_selection.length := by
    rw [hd, StrokesState.update_selection_bounds_selection_components, hsel3]
  refine ⟨hdstrokes, ?_, ?_, s.duplicate_selection_inv⟩
  · intro k hk
    unfold StrokesState.selected
    rw [hdsel]
    have hmem : k ∈ Table.keys s.deselect_all_strokes.selection_components := by
      rw [hs1k]
      exact s.mem_sel_keys_of_mem_keys_selection k hk
    rw [Table.get_append_left _ _ _ ((Table.isSome_get_iff_mem_keys _ _).mpr hmem)]
    obtain ⟨c, hc⟩ : ∃ c, Table.get s.deselect_all_strokes.selection_components k
        = some c := by
      have := (Table.isSome_get_iff_mem_keys _ _).mpr hmem
      rcases hg : Table.get s.deselect_all_strokes.selection_components k with _ | c
      · rw [hg] at this
        cases this
      · exact ⟨c, rfl⟩
    rw [hc]
    have hcf : c.selected = false :=
      hs1false (k, c) (Table.get_mem _ _ _ hc)
    simp [hcf]
  · intro i orig horig
    have hi : i < (s.keys_selection.filterMap (s.strokes.get ·)).length := by
      by_contra hcon
      push_neg at hcon
      rw [List.getElem?_eq_none hcon] at horig
      cases horig
    have hclone : s.duplicate_selection.strokes.get (s.next_key + i)
        = some ((orig.translate SELECTION_DUPLICATION_OFFSET_X
            SELECTION_DUPLICATION_OFFSET_Y).translate SELECTION_DUPLICATION_OFFSET_X
            SELECTION_DUPLICATION_OFFSET_Y) := by
      rw [hdstrokes]
      rw [Table.get_append_right _ _ _ (fun hm => by
        have := hfA _ hm
        omega)]
      exact clones2_from_get _ s.next_key _ _ i orig horig
    refine ⟨hclone, ?_, ?_⟩
    · unfold StrokesState.selected
      rw [hdsel]
      have hnotold : s.next_key + i
          ∉ Table.keys s.deselect_all_strokes.selection_components := by
        rw [hs1k]
        intro hm
        have := hfS _ hm
        omega
      rw [Table.get_append_right _ _ _ hnotold,
        sel_entries_get s.keys_selection.length s.next_key i
          (by rw [horigs_len] at hi; omega)]
      rfl
    · refine ⟨(orig.translate SELECTION_DUPLICATION_OFFSET_X
          SELECTION_DUPLICATION_OFFSET_Y).translate SELECTION_DUPLICATION_OFFSET_X
          SELECTION_DUPLICATION_OFFSET_Y, hclone, ?_⟩
      rw [StrokeStyle.bounds_translate, StrokeStyle.bounds_translate,
        AABB.translate_translate]
      norm_num [SELECTION_DUPLICATION_OFFSET_X, SELECTION_DUPLICATION_OFFSET_Y]

theorem duplicate_selection_spec_witness :
    exStateA.duplicate_selection.strokes
        = exStateA.strokes
          ++ clones2_from (exStateA.keys_selection.filterMap (exStateA.strokes.get ·))
            exStateA.next_key SELECTION_DUPLICATION_OFFSET_X
            SELECTION_DUPLICATION_OFFSET_Y ∧
    exStateA.duplicate_selection.selected 0 = some false ∧
    SelBoundsInv exStateA.duplicate_selection := by
  have h := duplicate_selection_spec exStateA (by decide) (by decide)
  exact ⟨h.1, h.2.1 0 (by decide), h.2.2.2⟩

end ClaimC8

end Rnote
